import Mathlib

/-!
# mexec: a pipeline executor

A shallow embedding of `mexec.c`.  The program reads command lines, splits
each one into an argument vector (`sep_args`), and runs the lines as one
pipeline (`exec_cmd`): one `pipe()` per adjacent pair of stages, one `fork()`
per stage, `dup2`/`close` in the child and `close` in the parent.  `main` then
waits for the children in stage order and exits with the first non-zero
`WEXITSTATUS`.

The kernel's per-process descriptor table is modelled explicitly, because the
program stores descriptor *numbers* in `int fd[][2]` and the kernel reuses the
numbers of closed descriptors.
-/

namespace Mexec

/-! ## Constants of `mexec.c` and of the C library -/

def MAX_LINE : Nat := 1024
def READ : Nat := 0
def WRITE : Nat := 1
def STDIN_FILENO : Nat := 0
def STDOUT_FILENO : Nat := 1
def EXIT_SUCCESS : Nat := 0
def EXIT_FAILURE : Nat := 1

/-! ## The descriptor table of one process -/

/-- What an open descriptor refers to: something the process was started with,
or one end of the pipe that `pipe(fd[i])` created. -/
inductive File where
  | inherited (n : Nat)
  | pipeRead (i : Nat)
  | pipeWrite (i : Nat)
  deriving DecidableEq, Repr

/-- A descriptor table: slot `n` is `some f` when descriptor `n` is open on `f`. -/
abbrev FdTable := List (Option File)

/-- The file behind descriptor `n`, `none` when `n` is not open. -/
def lookup : FdTable → Nat → Option File
  | [], _ => none
  | f :: _, 0 => f
  | _ :: t, n + 1 => lookup t n

/-- The lowest descriptor number that is not open (what `pipe` and `open` hand out). -/
def lowestFree : FdTable → Nat
  | [] => 0
  | none :: _ => 0
  | some _ :: t => lowestFree t + 1

/-- Overwrite slot `n` of the table. -/
def install : FdTable → Nat → Option File → FdTable
  | [], 0, f => [f]
  | [], n + 1, f => none :: install [] n f
  | _ :: t, 0, f => f :: t
  | x :: t, n + 1, f => x :: install t n f

/-- The call `close(n)`: releases `n`; on a descriptor that is not open it fails
with EBADF and changes nothing. -/
def sys_close (n : Nat) (t : FdTable) : FdTable :=
  match lookup t n with
  | none => t
  | some _ => install t n none

/-- The call `pipe(fd[i])`: the read end gets the lowest free descriptor, the
write end the next one.  Returns `(fd[i][READ], fd[i][WRITE], table)`. -/
def sys_pipe (i : Nat) (t : FdTable) : Nat × Nat × FdTable :=
  let r := lowestFree t
  let t1 := install t r (some (File.pipeRead i))
  let w := lowestFree t1
  (r, w, install t1 w (some (File.pipeWrite i)))

/-- The call `dup2(oldfd, newfd)`: `newfd` now refers to the file of `oldfd`;
fails (EBADF) when `oldfd` is not open. -/
def sys_dup2 (oldfd newfd : Nat) (t : FdTable) : Option FdTable :=
  match lookup t oldfd with
  | none => none
  | some f => some (install t newfd (some f))

/-- No descriptor of the table is a pipe end. -/
def noPipe (t : FdTable) : Bool :=
  t.all fun o =>
    match o with
    | some (File.pipeRead _) => false
    | some (File.pipeWrite _) => false
    | _ => true

/-! ## Program state -/

/-- The `handler` struct.  `input` is the descriptor behind `FILE *input`;
`saved_input n` is the C string stored in `saved_input[n]` (its characters
before the terminating NUL); `args i` is `args[i]`, `none` for `NULL`. -/
structure handler where
  input : Nat
  saved_input : Nat → List Char
  args : Nat → Option (List Char)
  c_input : Nat
  n_input : Nat
  n_cmd : Nat
  c_cmd : Nat

/-- The descriptor and process calls a process issues, in order. -/
inductive Call where
  | pipe (slot : Nat)
  | fork (slot : Nat)
  | dup2 (oldfd newfd : Nat)
  | close (fd : Nat)
  | fclose (fd : Nat)
  | execvp (file : Option (List Char))
  | waitpid (pid : Nat)
  deriving DecidableEq, Repr

/-- One process running `mexec`: the handler, the arrays `fd` and `pid` of
`main`, the descriptor table, the calls issued so far (oldest first, failed
calls included), and whether `safe_exit` has already freed the handler. -/
structure Proc where
  ha : handler
  fd : Nat → Nat → Nat
  pid : Nat → Nat
  fds : FdTable
  log : List Call
  freed : Bool

/-- What the environment answers: whether `pipe`, `dup2` and `execvp` succeed at
a stage, the pid `fork` returns to the parent (`none` for -1), the raw status
`waitpid` stores for a stage (`none` when `waitpid` returns -1), and `errno`
after a failed call. -/
structure Env where
  pipe_ok : Nat → Bool
  fork_pid : Nat → Option Nat
  dup2_ok : Nat → Nat → Bool
  execvp_ok : Nat → Bool
  wait_status : Nat → Option Nat
  errno : Nat

/-- How a call of a C function ends: it returns, or the process calls
`exit(code)` in state `p`. -/
inductive Run (α : Type) where
  | ret (a : α)
  | exit (code : Nat) (p : Proc)

/-- How a child process ends its part of `mexec`. -/
inductive Halt where
  | exec
  | exit (code : Nat)
  deriving DecidableEq, Repr

/-- A forked child: its stage, its state at the moment it called `execvp`
(`none` when it exited before), how it ended and its state at the end. -/
structure Child where
  stage : Nat
  at_execvp : Option Proc
  halt : Halt
  proc : Proc

/-- The parent process together with the children forked so far. -/
structure World where
  parent : Proc
  children : List Child

/-- The status a process that called `exit(code)` reports to its parent. -/
def exit_code (code : Nat) : Nat := code % 256

/-! ## `sep_args` -/

/-- The delimiter set of `sep_args`: `const char delim[] = " \n"`. -/
def delim : List Char := [' ', '\n']

/-- One call of `strtok`: skip leading delimiters; `none` (NULL) when nothing is
left; otherwise the token runs to the next delimiter, which is overwritten with
NUL, and scanning resumes after it.  Returns `(token, rest)`. -/
def strtok (dl : List Char) (s : List Char) : Option (List Char × List Char) :=
  match s.dropWhile (fun c => decide (c ∈ dl)) with
  | [] => none
  | c :: cs =>
    some ((c :: cs).takeWhile (fun x => !decide (x ∈ dl)),
          ((c :: cs).dropWhile (fun x => !decide (x ∈ dl))).tail)

/-- Why `sep_args` does not return in the model. -/
inductive SepStop where
  | realloc_buff
  | fuel
  deriving DecidableEq, Repr

/-- The `while (token != NULL)` loop of `sep_args`, followed by
`ha->args[i] = NULL`.  `tok` is the pending result of `strtok`. -/
def sep_args_loop : Nat → Option (List Char × List Char) → Nat → handler → Except SepStop handler
  | _, none, i, ha => .ok { ha with args := Function.update ha.args i none }
  | 0, some _, _, _ => .error .fuel
  | f + 1, some (token, rest), i, ha =>
    if i > ha.n_cmd then .error .realloc_buff
    else
      sep_args_loop f (strtok delim rest) (i + 1)
        { ha with args := Function.update ha.args i (some token), c_cmd := ha.c_cmd + 1 }

/-- The function `sep_args(ha, n)`. -/
def sep_args (ha : handler) (n : Nat) : Except SepStop handler :=
  sep_args_loop ((ha.saved_input n).length + 1) (strtok delim (ha.saved_input n)) 0 ha

/-- The maximal non-empty runs of characters that are not delimiters, in
order: the text's description of the argument vector. -/
def tokens_of (isDelim : Char → Bool) (line : List Char) : List (List Char) :=
  (line.splitOnP isDelim).filter (fun t => !t.isEmpty)

/-- The two characters `sep_args` splits at. -/
def isDelim (c : Char) : Bool := decide (c ∈ delim)

/-! ## `safe_exit`, `safe_dup`, `exec_cmd` -/

/-- The function `safe_exit(ha, child)`: frees the argument strings (child only),
`fclose`s the input when `c_input != 0`, frees the buffers and the handler.
It returns to its caller. -/
def safe_exit (_child : Bool) (p : Proc) : Proc :=
  if p.ha.c_input ≠ 0 then
    { p with fds := sys_close p.ha.input p.fds,
             log := p.log ++ [Call.fclose p.ha.input],
             freed := true }
  else { p with freed := true }

/-- The function `safe_dup(pipe_end, fd, ha)` in the child of stage `stage`;
`row` is the pipe `fd` it is given.  The WRITE branch exits when `dup2` fails,
the READ branch calls `safe_exit` and returns. -/
def safe_dup (env : Env) (stage : Nat) (pipe_end : Nat) (row : Nat → Nat) (p : Proc) : Run Proc :=
  if pipe_end = WRITE then
    let q := { p with log := p.log ++ [Call.dup2 (row WRITE) STDOUT_FILENO] }
    match (if env.dup2_ok stage WRITE then sys_dup2 (row WRITE) STDOUT_FILENO p.fds else none) with
    | some t => .ret { q with fds := t }
    | none => .exit env.errno (safe_exit true q)
  else
    let q := { p with log := p.log ++ [Call.dup2 (row READ) STDIN_FILENO] }
    match (if env.dup2_ok stage READ then sys_dup2 (row READ) STDIN_FILENO p.fds else none) with
    | some t => .ret { q with fds := t }
    | none => .ret (safe_exit true q)

/-- The statement `if (execvp(ha->args[0], ha->args) < 0) { perror; safe_exit(ha, true); exit(errno); }`. -/
def try_execvp (env : Env) (stage : Nat) (p : Proc) : Child :=
  let q := { p with log := p.log ++ [Call.execvp (p.ha.args 0)] }
  if env.execvp_ok stage && (p.ha.args 0).isSome then
    { stage := stage, at_execvp := some q, halt := Halt.exec, proc := q }
  else
    { stage := stage, at_execvp := some q, halt := Halt.exit env.errno, proc := safe_exit true q }

/-- The loop `for (int i = 0; i <= pid_num - 1; i++) { close(fd[i][WRITE]); close(fd[i][READ]); }`. -/
def close_unused (pid_num : Nat) (p : Proc) : Proc :=
  (List.range pid_num).foldl
    (fun q i =>
      { q with fds := sys_close (q.fd i READ) (sys_close (q.fd i WRITE) q.fds),
               log := q.log ++ [Call.close (q.fd i WRITE), Call.close (q.fd i READ)] })
    p

/-- The redirections of the child of stage `pid_num` when there are several
stages: `if (pid_num + 1 == ha->c_input) ... else ...` with its calls of
`safe_dup`.  In the branches that read `fd[pid_num - 1]`, `pid_num` is at
least 1. -/
def exec_cmd_redirect (env : Env) (pid_num : Nat) (p : Proc) : Run Proc :=
  if pid_num + 1 = p.ha.c_input then
    safe_dup env pid_num READ (p.fd (pid_num - 1)) p
  else if pid_num = 0 then
    safe_dup env pid_num WRITE (p.fd pid_num) p
  else
    match safe_dup env pid_num WRITE (p.fd pid_num) p with
    | .ret p1 => safe_dup env pid_num READ (p1.fd (pid_num - 1)) p1
    | .exit code q => .exit code q

/-- The branch `case 0:` of `exec_cmd`: the code the child of stage `pid_num`
runs, from a copy `p` of the parent's state at the `fork`. -/
def exec_cmd_child (env : Env) (pid_num : Nat) (p : Proc) : Child :=
  if p.ha.c_input = 1 then
    try_execvp env pid_num p
  else
    match exec_cmd_redirect env pid_num p with
    | .ret p1 => try_execvp env pid_num (close_unused pid_num p1)
    | .exit code q => { stage := pid_num, at_execvp := none, halt := Halt.exit code, proc := q }

/-- The branch `default:` of `exec_cmd`: what the parent does after the `fork`. -/
def exec_cmd_parent (pid_num : Nat) (p : Proc) : Proc :=
  let p1 :=
    if (pid_num : Int) ≠ (p.ha.c_input : Int) - 1 then
      { p with fds := sys_close (p.fd pid_num WRITE) p.fds,
               log := p.log ++ [Call.close (p.fd pid_num WRITE)] }
    else p
  if pid_num > 0 then
    { p1 with fds := sys_close (p1.fd (pid_num - 1) READ) p1.fds,
              log := p1.log ++ [Call.close (p1.fd (pid_num - 1) READ)] }
  else p1

/-- The first statement of `exec_cmd`: `pipe(fd[pid_num])` unless this is the
last stage; `safe_exit` and `exit(errno)` when it fails. -/
def exec_cmd_pipe (env : Env) (pid_num : Nat) (p : Proc) : Run Proc :=
  if (pid_num : Int) ≠ (p.ha.c_input : Int) - 1 then
    let q := { p with log := p.log ++ [Call.pipe pid_num] }
    if env.pipe_ok pid_num then
      let r := sys_pipe pid_num p.fds
      .ret { q with fds := r.2.2,
                    fd := fun i e => if i = pid_num then (if e = READ then r.1 else r.2.1) else p.fd i e }
    else .exit env.errno (safe_exit false q)
  else .ret p

/-- The function `exec_cmd(ha, fd, pid, pid_num)`, run in the parent; the child
it forks is appended to the world.  The child is a copy of the parent at the
`fork`, with `pid[pid_num] = 0` and an empty call log of its own. -/
def exec_cmd (env : Env) (pid_num : Nat) (w : World) : Run World :=
  match exec_cmd_pipe env pid_num w.parent with
  | .ret p1 =>
    let q := { p1 with log := p1.log ++ [Call.fork pid_num] }
    match env.fork_pid pid_num with
    | none => .exit env.errno (safe_exit false q)
    | some c =>
      .ret { parent := exec_cmd_parent pid_num
                         { q with pid := fun i => if i = pid_num then c else q.pid i },
             children := w.children ++
               [exec_cmd_child env pid_num
                 { p1 with log := [], pid := fun i => if i = pid_num then 0 else p1.pid i }] }
  | .exit code q => .exit code q

/-! ## `main` -/

/-- One iteration of the loop of `main` that builds the pipeline:
`sep_args(ha, i); exec_cmd(ha, fd, pid, i);` then the argument strings are
freed and `c_cmd` is reset.  `none` when `sep_args` reaches `realloc_buff`,
whose `*buffer[i]` indexes past the pointer it is given: the run then leaves
the modelled behaviour. -/
def main_build_step (env : Env) (i : Nat) (w : World) : Option (Run World) :=
  match sep_args w.parent.ha i with
  | .error _ => none
  | .ok ha1 =>
    match exec_cmd env i { w with parent := { w.parent with ha := ha1 } } with
    | .ret w1 =>
      some (.ret { w1 with parent := { w1.parent with ha := { w1.parent.ha with c_cmd := 0 } } })
    | .exit code q => some (.exit code q)

/-- The loop `for (int i = 0; i < ha->c_input; i++)` from index `i` on, `k`
being the iterations still to run (`c_input` is not changed by the body). -/
def main_build_from (env : Env) : Nat → Nat → World → Option (Run World)
  | 0, _, w => some (.ret w)
  | k + 1, i, w =>
    match main_build_step env i w with
    | some (.ret w1) => main_build_from env k (i + 1) w1
    | r => r

/-- Lines 63-79 of `main`: build the whole pipeline. -/
def main_build (env : Env) (w : World) : Option (Run World) :=
  main_build_from env w.parent.ha.c_input 0 w

/-- The state in which `main` enters its first loop: nothing logged, no child
yet; `fd` and `pid` are the uninitialised arrays. -/
def start (ha : handler) (t : FdTable) (fd : Nat → Nat → Nat) (pid : Nat → Nat) : World :=
  { parent := { ha := ha, fd := fd, pid := pid, fds := t, log := [], freed := false },
    children := [] }

/-- The calls that create a pipe or a process. -/
def is_spawn : Call → Bool
  | Call.pipe _ => true
  | Call.fork _ => true
  | _ => false

/-- The `pipe` and `fork` calls of stages `0 .. i-1` of a pipeline of `n`
stages: a pipe for every stage but the last, right before that stage's fork. -/
def spawn_calls (n i : Nat) : List Call :=
  (List.range i).flatMap fun j => (if j + 1 < n then [Call.pipe j] else []) ++ [Call.fork j]

/-- The calls of the parent in `exec_cmd` for stage `j` of `n`, all
succeeding: `pipe` unless the stage is the last, `fork`, `close` of the new
pipe's write end, `close` of the previous pipe's read end. -/
def stage_calls (n : Nat) (fd : Nat → Nat → Nat) (j : Nat) : List Call :=
  (if j + 1 < n then [Call.pipe j] else []) ++ [Call.fork j] ++
    (if j + 1 < n then [Call.close (fd j WRITE)] else []) ++
    (if 0 < j then [Call.close (fd (j - 1) READ)] else [])

/-- The calls of the parent for stages `0 .. i-1`. -/
def parent_calls (n : Nat) (fd : Nat → Nat → Nat) (i : Nat) : List Call :=
  (List.range i).flatMap (stage_calls n fd)

/-- The child of stage `j`, when the building loop ran to its end. -/
def child_of (r : Option (Run World)) (j : Nat) : Option Child :=
  match r with
  | some (.ret w) => w.children[j]?
  | _ => none

/-- The argument of `exit` and the parent's state at that moment, when the
building loop ended in `exit`. -/
def exit_of (r : Option (Run World)) : Option (Nat × Proc) :=
  match r with
  | some (.exit code q) => some (code, q)
  | _ => none

/-- The macro `WEXITSTATUS` of `<sys/wait.h>`. -/
def WEXITSTATUS (status : Nat) : Nat := (status >>> 8) &&& 0xff

/-- The loop of `main` that waits for the children, from index `i` on (`k`
iterations still to run), and the `safe_exit`/`exit` that follow it.  Returns
the argument of `exit` and the state at that moment. -/
def main_wait_from (env : Env) : Nat → Nat → Proc → Nat × Proc
  | 0, _, p => (EXIT_SUCCESS, safe_exit false p)
  | k + 1, i, p =>
    let q := { p with log := p.log ++ [Call.waitpid (p.pid i)] }
    match env.wait_status i with
    | none => (env.errno, safe_exit false q)
    | some status =>
      if WEXITSTATUS status ≠ 0 then (WEXITSTATUS status, safe_exit false q)
      else main_wait_from env k (i + 1) q

/-- Lines 81-103 of `main`. -/
def main_wait (env : Env) (p : Proc) : Nat × Proc :=
  main_wait_from env p.ha.c_input 0 p

/-- The raw wait status of a child that called `exit(s)`. -/
def exited_with (s : Nat) : Nat := (s % 256) <<< 8

/-- The pids `waitpid` has been called on, in call order. -/
def waited (p : Proc) : List Nat :=
  p.log.filterMap fun c =>
    match c with
    | Call.waitpid x => some x
    | _ => none

/-! ## Invariant of the building loop -/

/-- What holds of the parent when it enters stage `i` of the building loop
(`i = c_input` at the end), started from handler `ha0` and table `T0`: the
only pipe end it holds is the read end of pipe `i-1`, kept for the next child;
the descriptor numbers stored in `fd` are free in `T0`. -/
structure ParentInv (env : Env) (ha0 : handler) (T0 : FdTable) (i : Nat) (w : World) : Prop where
  c_input : w.parent.ha.c_input = ha0.c_input
  n_cmd : w.parent.ha.n_cmd = ha0.n_cmd
  saved : w.parent.ha.saved_input = ha0.saved_input
  input : w.parent.ha.input = ha0.input
  fds_zero : i = 0 → w.parent.fds = T0
  fds : ∀ n, lookup w.parent.fds n =
    if 0 < i ∧ i < ha0.c_input ∧ n = w.parent.fd (i - 1) READ then some (File.pipeRead (i - 1))
    else lookup T0 n
  rows_free : ∀ k e, k < i → k + 1 < ha0.c_input → lookup T0 (w.parent.fd k e) = none
  log : w.parent.log.filter is_spawn = spawn_calls ha0.c_input i
  pids : ∀ k, k < i → env.fork_pid k = some (w.parent.pid k)
  stages : w.children.map Child.stage = List.range i
  freed : w.parent.freed = false
  calls : w.parent.log = parent_calls ha0.c_input w.parent.fd i

/-- The copy of the parent that the child of stage `i` starts from: the
handler after `sep_args`, the pipe of this stage (if any) and the read end of
the previous one open, nothing logged. -/
structure ChildStart (ha0 : handler) (T0 : FdTable) (i : Nat) (w1 : World) (q : Proc) : Prop where
  c_input : q.ha.c_input = ha0.c_input
  fd : q.fd = w1.parent.fd
  log : q.log = []
  freed : q.freed = false
  fds_single : ha0.c_input = 1 → q.fds = T0
  fds : ∀ n, lookup q.fds n =
    if i + 1 < ha0.c_input ∧ n = q.fd i WRITE then some (File.pipeWrite i)
    else if i + 1 < ha0.c_input ∧ n = q.fd i READ then some (File.pipeRead i)
    else if 0 < i ∧ n = q.fd (i - 1) READ then some (File.pipeRead (i - 1))
    else lookup T0 n
  prev_ne : 0 < i → i + 1 < ha0.c_input →
    q.fd (i - 1) READ ≠ q.fd i WRITE ∧ q.fd (i - 1) READ ≠ q.fd i READ

/-- Stage `j` can be built: its line does not make `sep_args` grow the
argument buffer, `pipe` (when the stage needs one) and `fork` succeed. -/
def StageOk (env : Env) (ha0 : handler) (j : Nat) : Prop :=
  (tokens_of isDelim (ha0.saved_input j)).length ≤ ha0.n_cmd + 1 ∧
  (j + 1 < ha0.c_input → env.pipe_ok j = true) ∧
  env.fork_pid j ≠ none

/-! ## Sample inputs -/

/-- The table of a process started with only the three standard descriptors. -/
def std_table : FdTable :=
  [some (File.inherited 0), some (File.inherited 1), some (File.inherited 2)]

/-- A handler as `init_struct` and `read_input` leave it after reading `n`
lines `cat` from standard input. -/
def sample_handler (n : Nat) : handler :=
  { input := 0, saved_input := fun _ => ['c', 'a', 't', '\n'], args := fun _ => none,
    c_input := n, n_input := 50, n_cmd := 50, c_cmd := 0 }

/-- The parent process before the pipeline is built. -/
def sample_proc (n : Nat) : Proc :=
  { ha := sample_handler n, fd := fun _ _ => 0, pid := fun _ => 0,
    fds := std_table, log := [], freed := false }

/-- The state in which `main` starts building a pipeline of `n` stages `cat`. -/
def sample_world (n : Nat) : World :=
  start (sample_handler n) std_table (fun _ _ => 0) (fun _ => 0)

/-- The parent once `n` children with pids `100, 101, ...` have been forked. -/
def sample_waiter (n : Nat) : Proc :=
  { sample_proc n with pid := fun i => 100 + i }

/-- An environment in which every call succeeds and `waitpid` stores the raw
statuses `ws`. -/
def sample_env (ws : List Nat) : Env :=
  { pipe_ok := fun _ => true, fork_pid := fun i => some (100 + i), dup2_ok := fun _ _ => true,
    execvp_ok := fun _ => true, wait_status := fun i => ws[i]?, errno := 2 }

/-- An environment in which `fork` fails at stage `k` and every other call
succeeds. -/
def sample_env_fork_fails (k : Nat) : Env :=
  { sample_env [] with fork_pid := fun i => if i = k then none else some (100 + i) }

/-- An environment in which `dup2` onto standard input fails at stage `k` and
every other call succeeds. -/
def sample_env_dup2_fails (k : Nat) : Env :=
  { sample_env [] with dup2_ok := fun i e => !(i == k && e == READ) }

/-! ## Facts about the descriptor table -/

theorem lookup_nil (n : Nat) : lookup [] n = none := by
  cases n <;> rfl

theorem lookup_install (t : FdTable) (n m : Nat) (f : Option File) :
    lookup (install t n f) m = if m = n then f else lookup t m := by
  induction t generalizing n m with
  | nil =>
    induction n generalizing m with
    | zero =>
      cases m with
      | zero => simp [install, lookup]
      | succ m => simp [install, lookup, lookup_nil]
    | succ n ih =>
      cases m with
      | zero => simp [install, lookup]
      | succ m => simp [install, lookup, ih, lookup_nil]
  | cons x t ih =>
    cases n with
    | zero =>
      cases m with
      | zero => simp [install, lookup]
      | succ m => simp [install, lookup]
    | succ n =>
      cases m with
      | zero => simp [install, lookup]
      | succ m => simp [install, lookup, ih]

theorem lookup_lowestFree (t : FdTable) : lookup t (lowestFree t) = none := by
  induction t with
  | nil => rfl
  | cons x t ih =>
    cases x with
    | none => rfl
    | some f => simpa [lowestFree, lookup] using ih

theorem lookup_sys_close (t : FdTable) (n m : Nat) :
    lookup (sys_close n t) m = if m = n then none else lookup t m := by
  unfold sys_close
  cases h : lookup t n with
  | none =>
    by_cases hm : m = n
    · simp [hm, h]
    · simp [hm]
  | some f => simp [lookup_install]

theorem lookup_sys_pipe (i : Nat) (t : FdTable) (m : Nat) :
    lookup (sys_pipe i t).2.2 m =
      if m = (sys_pipe i t).2.1 then some (File.pipeWrite i)
      else if m = (sys_pipe i t).1 then some (File.pipeRead i)
      else lookup t m := by
  simp [sys_pipe, lookup_install]

theorem sys_pipe_read_free (i : Nat) (t : FdTable) : lookup t (sys_pipe i t).1 = none := by
  simp [sys_pipe, lookup_lowestFree]

theorem sys_pipe_write_free (i : Nat) (t : FdTable) : lookup t (sys_pipe i t).2.1 = none := by
  have h := lookup_lowestFree (install t (lowestFree t) (some (File.pipeRead i)))
  rw [lookup_install] at h
  by_cases hm : lowestFree (install t (lowestFree t) (some (File.pipeRead i))) = lowestFree t
  · simp [hm] at h
  · simpa [sys_pipe, hm] using h

theorem sys_pipe_ne (i : Nat) (t : FdTable) : (sys_pipe i t).2.1 ≠ (sys_pipe i t).1 := by
  intro hm
  have h := lookup_lowestFree (install t (lowestFree t) (some (File.pipeRead i)))
  rw [lookup_install] at h
  simp only [sys_pipe] at hm
  simp [hm] at h

theorem noPipe_lookup (t : FdTable) (h : noPipe t = true) (n i : Nat) :
    lookup t n ≠ some (File.pipeRead i) ∧ lookup t n ≠ some (File.pipeWrite i) := by
  induction t generalizing n with
  | nil => simp [lookup_nil]
  | cons x t ih =>
    simp only [noPipe, List.all_cons, Bool.and_eq_true] at h
    cases n with
    | zero =>
      simp only [lookup]
      rcases x with _ | f
      · simp
      · cases f <;> simp_all
    | succ n =>
      simp only [lookup]
      exact ih (by simpa [noPipe] using h.2) n

/-! ## Facts about `strtok` and `sep_args` -/

theorem splitOnP_takeWhile (p : Char → Bool) (s : List Char) :
    s.splitOnP p = s.takeWhile (fun x => !p x) ::
      (match s.dropWhile (fun x => !p x) with
       | [] => []
       | _ :: r => r.splitOnP p) := by
  induction s with
  | nil => simp [List.splitOnP_nil]
  | cons c s ih =>
    rw [List.splitOnP_cons]
    by_cases hc : p c = true
    · simp [hc, List.takeWhile, List.dropWhile]
    · simp only [Bool.not_eq_true] at hc
      rw [ih]
      simp [hc, List.takeWhile, List.dropWhile, List.modifyHead]

theorem tokens_of_nil (p : Char → Bool) : tokens_of p [] = [] := by
  simp [tokens_of, List.splitOnP_nil]

theorem tokens_of_cons_delim (p : Char → Bool) (c : Char) (s : List Char) (hc : p c = true) :
    tokens_of p (c :: s) = tokens_of p s := by
  simp [tokens_of, List.splitOnP_cons, hc]

theorem tokens_of_cons_other (p : Char → Bool) (c : Char) (s : List Char) (hc : p c = false) :
    tokens_of p (c :: s) =
      (c :: s).takeWhile (fun x => !p x) ::
        tokens_of p ((c :: s).dropWhile (fun x => !p x)).tail := by
  unfold tokens_of
  rw [splitOnP_takeWhile p (c :: s)]
  cases h : (c :: s).dropWhile (fun x => !p x) with
  | nil => simp [List.takeWhile, hc, List.splitOnP_nil]
  | cons d r => simp [List.takeWhile, hc]

theorem strtok_none (s : List Char) (h : strtok delim s = none) : tokens_of isDelim s = [] := by
  induction s with
  | nil => exact tokens_of_nil _
  | cons c s ih =>
    by_cases hc : isDelim c = true
    · rw [tokens_of_cons_delim _ _ _ hc]
      apply ih
      have hc2 : c ∈ delim := by simpa [isDelim] using hc
      simpa [strtok, List.dropWhile, hc2] using h
    · have hc2 : c ∉ delim := by simpa [isDelim] using hc
      simp [strtok, List.dropWhile, hc2] at h

theorem strtok_some (s : List Char) (tok rest : List Char) (h : strtok delim s = some (tok, rest)) :
    tokens_of isDelim s = tok :: tokens_of isDelim rest ∧ rest.length < s.length := by
  induction s with
  | nil => simp [strtok] at h
  | cons c s ih =>
    by_cases hc : isDelim c = true
    · rw [tokens_of_cons_delim _ _ _ hc]
      have hc2 : c ∈ delim := by simpa [isDelim] using hc
      have h2 : strtok delim s = some (tok, rest) := by
        simpa [strtok, List.dropWhile, hc2] using h
      have := ih h2
      exact ⟨this.1, by simp; omega⟩
    · simp only [Bool.not_eq_true] at hc
      have hc2 : c ∉ delim := by simpa [isDelim] using hc
      rw [tokens_of_cons_other _ _ _ hc]
      have hd : List.dropWhile (fun c => decide (c ∈ delim)) (c :: s) = c :: s := by
        simp [List.dropWhile, hc2]
      have hf : (fun x => !decide (x ∈ delim)) = (fun x => !isDelim x) := by
        funext x; simp [isDelim]
      simp only [strtok, hd, Option.some.injEq, Prod.mk.injEq, hf] at h
      obtain ⟨h1, h2⟩ := h
      subst h1; subst h2
      refine ⟨rfl, ?_⟩
      have h3 : (List.dropWhile (fun x => !isDelim x) (c :: s)).tail.length ≤
          (List.dropWhile (fun x => !isDelim x) (c :: s)).length - 1 := by simp
      have h4 : List.dropWhile (fun x => !isDelim x) (c :: s) = List.dropWhile (fun x => !isDelim x) s := by
        simp [List.dropWhile, hc]
      rw [h4] at h3
      have h5 := (List.dropWhile_sublist (l := s) (fun x => !isDelim x)).length_le
      rw [h4]
      simp only [List.length_cons]
      omega
theorem sep_args_loop_ok (fuel : Nat) (s : List Char) (i : Nat) (ha : handler)
    (hf : s.length < fuel)
    (hn : ∀ j, j < (tokens_of isDelim s).length → i + j ≤ ha.n_cmd) :
    ∃ ha', sep_args_loop fuel (strtok delim s) i ha = .ok ha' ∧
      ha'.c_cmd = ha.c_cmd + (tokens_of isDelim s).length ∧
      (∀ j, j ≤ (tokens_of isDelim s).length → ha'.args (i + j) = (tokens_of isDelim s)[j]?) ∧
      (∀ k, k < i → ha'.args k = ha.args k) ∧
      ha'.c_input = ha.c_input ∧ ha'.input = ha.input ∧
      ha'.saved_input = ha.saved_input ∧ ha'.n_cmd = ha.n_cmd ∧ ha'.n_input = ha.n_input := by
  induction fuel generalizing s i ha with
  | zero => omega
  | succ f ih =>
    cases h : strtok delim s with
    | none =>
      have ht := strtok_none s h
      refine ⟨{ ha with args := Function.update ha.args i none }, by simp [sep_args_loop],
        ?_, ?_, ?_, rfl, rfl, rfl, rfl, rfl⟩
      · simp [ht]
      · intro j hj
        rw [ht] at hj
        have : j = 0 := by simpa using hj
        subst this
        simp [ht]
      · intro k hk
        simp [Function.update, Nat.ne_of_lt hk]
    | some tr =>
      obtain ⟨tok, rest⟩ := tr
      obtain ⟨ht, hl⟩ := strtok_some s tok rest h
      have h0 : ¬ i > ha.n_cmd := by
        have := hn 0 (by simp [ht])
        omega
      obtain ⟨ha', e, hc, ha_args, hkeep, h1, h2, h3, h4, h5⟩ :=
        ih rest (i + 1)
          { ha with args := Function.update ha.args i (some tok), c_cmd := ha.c_cmd + 1 }
          (by omega)
          (by
            intro j hj
            have := hn (j + 1) (by simp [ht]; omega)
            simp only
            omega)
      refine ⟨ha', by simp [sep_args_loop, h0, e], ?_, ?_, ?_, h1, h2, h3, h4, h5⟩
      · simp only [hc, ht, List.length_cons]
        omega
      · intro j hj
        cases j with
        | zero =>
          rw [Nat.add_zero, hkeep i (by omega)]
          simp [ht]
        | succ j =>
          rw [ht] at hj
          have := ha_args j (by simpa using hj)
          rw [ht]
          simp only [List.getElem?_cons_succ]
          rw [← this]
          congr 1
          omega
      · intro k hk
        rw [hkeep k (by omega)]
        simp [Function.update, Nat.ne_of_lt hk]

theorem sep_args_ok (ha : handler) (n : Nat)
    (hn : (tokens_of isDelim (ha.saved_input n)).length ≤ ha.n_cmd + 1) :
    ∃ ha', sep_args ha n = .ok ha' ∧
      ha'.c_cmd = ha.c_cmd + (tokens_of isDelim (ha.saved_input n)).length ∧
      (∀ j, j ≤ (tokens_of isDelim (ha.saved_input n)).length →
        ha'.args j = (tokens_of isDelim (ha.saved_input n))[j]?) ∧
      ha'.c_input = ha.c_input ∧ ha'.input = ha.input ∧
      ha'.saved_input = ha.saved_input ∧ ha'.n_cmd = ha.n_cmd ∧ ha'.n_input = ha.n_input := by
  obtain ⟨ha', e, hc, ha_args, _, h1, h2, h3, h4, h5⟩ :=
    sep_args_loop_ok ((ha.saved_input n).length + 1) (ha.saved_input n) 0 ha (by omega)
      (by intro j hj; omega)
  exact ⟨ha', e, hc, fun j hj => by simpa using ha_args j hj, h1, h2, h3, h4, h5⟩

theorem tokens_of_all_delim (p : Char → Bool) (s : List Char) (h : ∀ c ∈ s, p c = true) :
    tokens_of p s = [] := by
  induction s with
  | nil => exact tokens_of_nil p
  | cons c s ih =>
    rw [tokens_of_cons_delim p c s (h c (by simp))]
    exact ih (fun d hd => h d (by simp [hd]))

/-- C7 (amended): for a stored line with at most 50 tokens, with `c_cmd = 0` and
`n_cmd = 50` on entry, `sep_args` returns and leaves in `args[0..c_cmd)` exactly
the maximal non-empty runs of characters other than space and newline, in
order, followed by `NULL`; a line made only of spaces and newlines gives
`c_cmd = 0` and `args[0] = NULL`. -/
theorem sep_args_tokens (ha : handler) (n : Nat)
    (hc : ha.c_cmd = 0) (hcap : ha.n_cmd = 50)
    (hlen : (tokens_of isDelim (ha.saved_input n)).length ≤ 50) :
    ∃ ha', sep_args ha n = .ok ha' ∧
      ha'.c_cmd = (tokens_of isDelim (ha.saved_input n)).length ∧
      (∀ j, j < ha'.c_cmd → ha'.args j = (tokens_of isDelim (ha.saved_input n))[j]? ∧
        ha'.args j ≠ none) ∧
      ha'.args ha'.c_cmd = none ∧
      ((∀ c ∈ ha.saved_input n, c = ' ' ∨ c = '\n') → ha'.c_cmd = 0 ∧ ha'.args 0 = none) := by
  obtain ⟨ha', e, h1, h2, -⟩ := sep_args_ok ha n (by omega)
  have hcc : ha'.c_cmd = (tokens_of isDelim (ha.saved_input n)).length := by omega
  have hnull : ha'.args ha'.c_cmd = none := by
    rw [hcc, h2 _ (Nat.le_refl _)]
    simp
  refine ⟨ha', e, hcc, ?_, hnull, ?_⟩
  · intro j hj
    rw [hcc] at hj
    have := h2 j (by omega)
    refine ⟨this, ?_⟩
    rw [this]
    simp [List.getElem?_eq_getElem hj]
  · intro hall
    have : tokens_of isDelim (ha.saved_input n) = [] :=
      tokens_of_all_delim _ _ (fun c hc => by
        rcases hall c hc with h | h <;> simp [isDelim, delim, h])
    have h0 : ha'.c_cmd = 0 := by simp [hcc, this]
    exact ⟨h0, by simpa [h0] using hnull⟩

/-- Witness for C7: the line `ls -l`. -/
theorem sep_args_tokens_witness :
    ∃ ha', sep_args ⟨0, fun _ => ['l', 's', ' ', '-', 'l', '\n'], fun _ => none, 1, 50, 50, 0⟩ 0 = .ok ha' ∧
      ha'.c_cmd = (tokens_of isDelim ['l', 's', ' ', '-', 'l', '\n']).length ∧
      (∀ j, j < ha'.c_cmd → ha'.args j = (tokens_of isDelim ['l', 's', ' ', '-', 'l', '\n'])[j]? ∧
        ha'.args j ≠ none) ∧
      ha'.args ha'.c_cmd = none ∧
      ((∀ c ∈ ['l', 's', ' ', '-', 'l', '\n'], c = ' ' ∨ c = '\n') → ha'.c_cmd = 0 ∧ ha'.args 0 = none) :=
  sep_args_tokens ⟨0, fun _ => ['l', 's', ' ', '-', 'l', '\n'], fun _ => none, 1, 50, 50, 0⟩ 0 rfl rfl
    (by decide)

/-- C7 (counterexample): on the line `a<TAB>b` the tab does not delimit:
`sep_args` stores the single argument `a<TAB>b`, while the runs of
non-whitespace characters are `a` and `b`. -/
theorem sep_args_tab_not_delimiter :
    ∃ ha', sep_args ⟨0, fun _ => ['a', '\t', 'b', '\n'], fun _ => none, 1, 50, 50, 0⟩ 0 = .ok ha' ∧
      ha'.c_cmd = 1 ∧ ha'.args 0 = some ['a', '\t', 'b'] ∧ ha'.args 1 = none ∧
      tokens_of Char.isWhitespace ['a', '\t', 'b', '\n'] = [['a'], ['b']] := by
  obtain ⟨ha', e, h1, h2, -⟩ :=
    sep_args_ok ⟨0, fun _ => ['a', '\t', 'b', '\n'], fun _ => none, 1, 50, 50, 0⟩ 0 (by decide)
  have ht : tokens_of isDelim ['a', '\t', 'b', '\n'] = [['a', '\t', 'b']] := by decide
  simp only [ht] at h1 h2
  refine ⟨ha', e, by simpa using h1, ?_, ?_, by decide⟩
  · simpa using h2 0 (by simp)
  · simpa using h2 1 (by simp)

/-! ## Facts about the wait loop -/

theorem WEXITSTATUS_lt (w : Nat) : WEXITSTATUS w < 256 := by
  unfold WEXITSTATUS
  have : (255 : Nat) = 2 ^ 8 - 1 := by norm_num
  rw [show (0xff : Nat) = 2 ^ 8 - 1 by norm_num, Nat.and_pow_two_sub_one_eq_mod]
  omega

theorem WEXITSTATUS_exited_with (s : Nat) (h : s < 256) : WEXITSTATUS (exited_with s) = s := by
  unfold WEXITSTATUS exited_with
  rw [show (0xff : Nat) = 2 ^ 8 - 1 by norm_num, Nat.and_pow_two_sub_one_eq_mod,
    Nat.shiftLeft_eq, Nat.shiftRight_eq_div_pow]
  omega

theorem range_succ_map_add {α : Type} (f : Nat → α) (i k : Nat) :
    (List.range (k + 1)).map (fun j => f (i + j)) =
      f i :: (List.range k).map (fun j => f (i + 1 + j)) := by
  rw [List.range_succ_eq_map]
  simp only [List.map_cons, List.map_map, Nat.add_zero]
  congr 1
  apply List.map_congr_left
  intro j _
  simp only [Function.comp]
  congr 1
  omega

theorem main_wait_from_all (env : Env) (k i : Nat) (p : Proc)
    (h : ∀ j, j < k → ∃ w, env.wait_status (i + j) = some w ∧ WEXITSTATUS w = 0) :
    main_wait_from env k i p =
      (EXIT_SUCCESS, safe_exit false
        { p with log := p.log ++ (List.range k).map (fun j => Call.waitpid (p.pid (i + j))) }) := by
  induction k generalizing i p with
  | zero => simp [main_wait_from]
  | succ k ih =>
    obtain ⟨w, hw, hz⟩ := h 0 (by omega)
    rw [Nat.add_zero] at hw
    have := ih (i + 1) { p with log := p.log ++ [Call.waitpid (p.pid i)] } (by
      intro j hj
      have := h (j + 1) (by omega)
      rwa [show i + 1 + j = i + (j + 1) by omega])
    simp only [main_wait_from, hw, hz, ne_eq, not_true_eq_false, if_false, this]
    have e := range_succ_map_add (fun x => Call.waitpid (p.pid x)) i k
    simp only at e
    rw [e]
    simp

theorem main_wait_from_stop (env : Env) (m k i : Nat) (p : Proc) (w : Nat) (hm : m < k)
    (h : ∀ j, j < m → ∃ v, env.wait_status (i + j) = some v ∧ WEXITSTATUS v = 0)
    (hw : env.wait_status (i + m) = some w) (hne : WEXITSTATUS w ≠ 0) :
    main_wait_from env k i p =
      (WEXITSTATUS w, safe_exit false
        { p with log := p.log ++ (List.range (m + 1)).map (fun j => Call.waitpid (p.pid (i + j))) }) := by
  induction m generalizing k i p with
  | zero =>
    obtain ⟨k, rfl⟩ : ∃ k', k = k' + 1 := ⟨k - 1, by omega⟩
    rw [Nat.add_zero] at hw
    simp [main_wait_from, hw, hne, List.range_succ]
  | succ m ih =>
    obtain ⟨k, rfl⟩ : ∃ k', k = k' + 1 := ⟨k - 1, by omega⟩
    obtain ⟨v, hv, hz⟩ := h 0 (by omega)
    rw [Nat.add_zero] at hv
    have := ih k (i + 1) { p with log := p.log ++ [Call.waitpid (p.pid i)] } (by omega) (by
      intro j hj
      have := h (j + 1) (by omega)
      rwa [show i + 1 + j = i + (j + 1) by omega]) (by
      rwa [show i + 1 + m = i + (m + 1) by omega])
    simp only [main_wait_from, hv, hz, ne_eq, not_true_eq_false, if_false, this]
    have e := range_succ_map_add (fun x => Call.waitpid (p.pid x)) i (m + 1)
    simp only at e
    rw [e]
    simp

theorem waited_safe_exit (b : Bool) (p : Proc) : waited (safe_exit b p) = waited p := by
  unfold safe_exit waited
  split <;> simp [List.filterMap_append]

theorem waited_log_append (p : Proc) (l : List Nat) :
    waited { p with log := p.log ++ l.map Call.waitpid } = waited p ++ l := by
  unfold waited
  simp only [List.filterMap_append]
  congr 1
  induction l with
  | nil => rfl
  | cons a l ih => simp [List.filterMap_cons, ih]

theorem main_wait_zero (env : Env) (p : Proc) (ws : List Nat)
    (hN : p.ha.c_input = ws.length)
    (hw : ∀ i, i < ws.length → env.wait_status i = ws[i]?)
    (hall : ∀ w ∈ ws, WEXITSTATUS w = 0) :
    main_wait env p =
      (EXIT_SUCCESS, safe_exit false
        { p with log := p.log ++ ((List.range ws.length).map p.pid).map Call.waitpid }) := by
  unfold main_wait
  rw [hN, main_wait_from_all env ws.length 0 p]
  · simp only [Nat.zero_add, List.map_map]
    rfl
  · intro j hj
    refine ⟨ws[j], ?_, hall _ (List.getElem_mem hj)⟩
    rw [Nat.zero_add, hw j hj, List.getElem?_eq_getElem hj]

theorem main_wait_first (env : Env) (p : Proc) (ws : List Nat) (k w : Nat)
    (hN : p.ha.c_input = ws.length)
    (hw : ∀ i, i < ws.length → env.wait_status i = ws[i]?)
    (hk : ws[k]? = some w) (hne : WEXITSTATUS w ≠ 0)
    (hlt : ∀ j v, j < k → ws[j]? = some v → WEXITSTATUS v = 0) :
    main_wait env p =
      (WEXITSTATUS w, safe_exit false
        { p with log := p.log ++ ((List.range (k + 1)).map p.pid).map Call.waitpid }) := by
  have hkl : k < ws.length := by
    by_contra hc
    rw [List.getElem?_eq_none (by omega)] at hk
    exact Option.noConfusion hk
  unfold main_wait
  rw [hN, main_wait_from_stop env k ws.length 0 p w hkl]
  · simp only [Nat.zero_add, List.map_map]
    rfl
  · intro j hj
    have hjl : j < ws.length := by omega
    refine ⟨ws[j], ?_, hlt j _ hj (List.getElem?_eq_getElem hjl)⟩
    rw [Nat.zero_add, hw j hjl, List.getElem?_eq_getElem hjl]
  · rw [Nat.zero_add, hw k hkl, hk]
  · exact hne

theorem main_wait_from_lt (env : Env) (k i : Nat) (p : Proc)
    (h : ∀ j, j < k → ∃ w, env.wait_status (i + j) = some w) :
    (main_wait_from env k i p).1 < 256 := by
  induction k generalizing i p with
  | zero => simp [main_wait_from, EXIT_SUCCESS]
  | succ k ih =>
    obtain ⟨w, hw⟩ := h 0 (by omega)
    rw [Nat.add_zero] at hw
    simp only [main_wait_from, hw]
    split
    · exact WEXITSTATUS_lt w
    · apply ih
      intro j hj
      have := h (j + 1) (by omega)
      rwa [show i + 1 + j = i + (j + 1) by omega]

theorem exited_statuses (ss : List Nat) (hs : ∀ s ∈ ss, s < 256) (i s : Nat)
    (h : (ss.map exited_with)[i]? = some s) :
    ∃ t, ss[i]? = some t ∧ s = exited_with t ∧ WEXITSTATUS s = t := by
  rw [List.getElem?_map] at h
  cases ht : ss[i]? with
  | none => simp [ht] at h
  | some t =>
    simp only [ht, Option.map_some', Option.some.injEq] at h
    refine ⟨t, rfl, h.symm, ?_⟩
    rw [← h]
    exact WEXITSTATUS_exited_with t (hs t (List.getElem?_mem ht))

/-- C4: when every `waitpid` succeeds and stage `i` exited with status
`ss[i]` (each in 0..255), the exit code of `mexec` is 0 if every status is 0
(also for no stage at all), and otherwise the status of the first stage, in
stage order, whose status is not 0. -/
theorem exit_status_aggregation (env : Env) (p : Proc) (ss : List Nat)
    (hN : p.ha.c_input = ss.length)
    (hs : ∀ s ∈ ss, s < 256)
    (hw : ∀ i, i < ss.length → env.wait_status i = (ss[i]?).map exited_with) :
    ((∀ s ∈ ss, s = 0) → exit_code (main_wait env p).1 = 0) ∧
    (∀ k s, ss[k]? = some s → s ≠ 0 → (∀ j t : Nat, j < k → ss[j]? = some t → t = 0) →
      exit_code (main_wait env p).1 = s) := by
  have hN2 : p.ha.c_input = (ss.map exited_with).length := by simpa using hN
  have hw2 : ∀ i, i < (ss.map exited_with).length →
      env.wait_status i = (ss.map exited_with)[i]? := by
    intro i hi
    rw [List.getElem?_map]
    exact hw i (by simpa using hi)
  constructor
  · intro hall
    rw [main_wait_zero env p _ hN2 hw2]
    · rfl
    · intro w hw3
      obtain ⟨s, hs1, rfl⟩ := List.mem_map.1 hw3
      rw [WEXITSTATUS_exited_with s (hs s hs1)]
      exact hall s hs1
  · intro k s hk hne hlt
    have hs256 : s < 256 := hs s (List.getElem?_mem hk)
    rw [main_wait_first env p _ k (exited_with s) hN2 hw2 (by simp [List.getElem?_map, hk])
      (by rw [WEXITSTATUS_exited_with s hs256]; exact hne)]
    · simp only [exit_code, WEXITSTATUS_exited_with s hs256]
      omega
    · intro j v hj hv
      obtain ⟨t, ht1, -, ht3⟩ := exited_statuses ss hs j v hv
      rw [ht3]
      exact hlt j t hj ht1

/-- C8: when every `waitpid` succeeds and stage `i` exited with status `ss[i]`,
`main` calls `waitpid` on `pid[0], ..., pid[k]` in that order and on nothing
else, `k` being the first stage whose status is not 0; when all statuses are 0
it calls `waitpid` once on each of `pid[0], ..., pid[N-1]`, in order. -/
theorem stop_early_waiting (env : Env) (p : Proc) (ss : List Nat)
    (hN : p.ha.c_input = ss.length)
    (hs : ∀ s ∈ ss, s < 256)
    (hw : ∀ i, i < ss.length → env.wait_status i = (ss[i]?).map exited_with) :
    ((∀ s ∈ ss, s = 0) →
      waited (main_wait env p).2 = waited p ++ (List.range ss.length).map p.pid) ∧
    (∀ k s, ss[k]? = some s → s ≠ 0 → (∀ j t : Nat, j < k → ss[j]? = some t → t = 0) →
      waited (main_wait env p).2 = waited p ++ (List.range (k + 1)).map p.pid) := by
  have hN2 : p.ha.c_input = (ss.map exited_with).length := by simpa using hN
  have hw2 : ∀ i, i < (ss.map exited_with).length →
      env.wait_status i = (ss.map exited_with)[i]? := by
    intro i hi
    rw [List.getElem?_map]
    exact hw i (by simpa using hi)
  constructor
  · intro hall
    rw [main_wait_zero env p _ hN2 hw2]
    · simp only [waited_safe_exit, waited_log_append, List.length_map]
    · intro w hw3
      obtain ⟨s, hs1, rfl⟩ := List.mem_map.1 hw3
      rw [WEXITSTATUS_exited_with s (hs s hs1)]
      exact hall s hs1
  · intro k s hk hne hlt
    have hs256 : s < 256 := hs s (List.getElem?_mem hk)
    rw [main_wait_first env p _ k (exited_with s) hN2 hw2 (by simp [List.getElem?_map, hk])
      (by rw [WEXITSTATUS_exited_with s hs256]; exact hne)]
    · simp only [waited_safe_exit, waited_log_append]
    · intro j v hj hv
      obtain ⟨t, ht1, -, ht3⟩ := exited_statuses ss hs j v hv
      rw [ht3]
      exact hlt j t hj ht1

/-- C10: when every `waitpid` succeeds and stores the raw status `ws[i]` for
stage `i`, `main` exits with 0 if `(w >> 8) & 0xff` is 0 for every stage (so a
stage killed by a signal, whose exit byte is 0, counts as a success), and
otherwise with exactly `(w >> 8) & 0xff` of the first stage for which it is
not 0; the argument of `exit` is below 256, so it is the exit code. -/
theorem status_decoding (env : Env) (p : Proc) (ws : List Nat)
    (hN : p.ha.c_input = ws.length)
    (hw : ∀ i, i < ws.length → env.wait_status i = ws[i]?) :
    ((∀ w ∈ ws, (w >>> 8) &&& 0xff = 0) → (main_wait env p).1 = 0) ∧
    (∀ k w, ws[k]? = some w → (w >>> 8) &&& 0xff ≠ 0 →
      (∀ j v : Nat, j < k → ws[j]? = some v → (v >>> 8) &&& 0xff = 0) →
      (main_wait env p).1 = (w >>> 8) &&& 0xff) ∧
    (main_wait env p).1 < 256 ∧ exit_code (main_wait env p).1 = (main_wait env p).1 := by
  have hlt : (main_wait env p).1 < 256 := by
    unfold main_wait
    apply main_wait_from_lt
    intro j hj
    rw [hN] at hj
    exact ⟨ws[j], by rw [Nat.zero_add, hw j hj, List.getElem?_eq_getElem hj]⟩
  refine ⟨?_, ?_, hlt, ?_⟩
  · intro hall
    rw [main_wait_zero env p ws hN hw (fun w hm => hall w hm)]
    rfl
  · intro k w hk hne hz
    rw [main_wait_first env p ws k w hN hw hk hne hz]
    rfl
  · exact Nat.mod_eq_of_lt hlt

/-- Witness for C4: statuses 0, 3, 1 give exit code 3. -/
theorem exit_status_aggregation_witness :
    (∀ s ∈ [0, 3, 1], s < 256) ∧
      exit_code (main_wait (sample_env ([0, 3, 1].map exited_with)) (sample_waiter 3)).1 = 3 :=
  ⟨by decide,
    (exit_status_aggregation (sample_env ([0, 3, 1].map exited_with)) (sample_waiter 3) [0, 3, 1]
      rfl (by decide) (fun i _ => List.getElem?_map exited_with [0, 3, 1] i)).2 1 3 rfl (by decide)
      (fun j t hj ht => by
        have : j = 0 := by omega
        subst this
        simpa using ht.symm)⟩

/-- Witness for C8: with statuses 0, 3, 1 `waitpid` is called on the first two
children only. -/
theorem stop_early_waiting_witness :
    (∀ s ∈ [0, 3, 1], s < 256) ∧
      waited (main_wait (sample_env ([0, 3, 1].map exited_with)) (sample_waiter 3)).2 =
        [100, 101] :=
  ⟨by decide,
    (stop_early_waiting (sample_env ([0, 3, 1].map exited_with)) (sample_waiter 3) [0, 3, 1]
      rfl (by decide) (fun i _ => List.getElem?_map exited_with [0, 3, 1] i)).2 1 3 rfl (by decide)
      (fun j t hj ht => by
        have : j = 0 := by omega
        subst this
        simpa using ht.symm)⟩

/-- Witness for C10: a child killed by signal 9 followed by a child that
exited with 3 (raw status 0x0300) gives exit code 3. -/
theorem status_decoding_witness :
    (main_wait (sample_env [9, 768]) (sample_waiter 2)).1 = (768 >>> 8) &&& 0xff ∧
      (768 >>> 8) &&& 0xff = 3 :=
  ⟨(status_decoding (sample_env [9, 768]) (sample_waiter 2) [9, 768] rfl
      (fun _ _ => rfl)).2.1 1 768 rfl (by decide)
      (fun j v hj hv => by
        have : j = 0 := by omega
        subst this
        have : v = 9 := by simpa using hv.symm
        subst this
        decide),
    by decide⟩

/-! ## The building loop -/

theorem spawn_calls_succ (n i : Nat) :
    spawn_calls n (i + 1) =
      spawn_calls n i ++ ((if i + 1 < n then [Call.pipe i] else []) ++ [Call.fork i]) := by
  simp [spawn_calls, List.range_succ, List.flatMap_append]

theorem parent_calls_succ (n : Nat) (fd : Nat → Nat → Nat) (i : Nat) :
    parent_calls n fd (i + 1) = parent_calls n fd i ++ stage_calls n fd i := by
  simp [parent_calls, List.range_succ, List.flatMap_append]

theorem parent_calls_congr (n i : Nat) (fd fd2 : Nat → Nat → Nat)
    (h : ∀ k e, k < i → fd2 k e = fd k e) :
    parent_calls n fd2 i = parent_calls n fd i := by
  induction i with
  | zero => rfl
  | succ i ih =>
    rw [parent_calls_succ, parent_calls_succ, ih (fun k e hk => h k e (by omega))]
    congr 1
    unfold stage_calls
    rw [h i WRITE (by omega)]
    by_cases hi : 0 < i
    · rw [h (i - 1) READ (by omega)]
    · simp [hi]

theorem try_execvp_stage (env : Env) (i : Nat) (p : Proc) : (try_execvp env i p).stage = i := by
  unfold try_execvp
  split <;> rfl

theorem exec_cmd_child_stage (env : Env) (i : Nat) (p : Proc) :
    (exec_cmd_child env i p).stage = i := by
  unfold exec_cmd_child
  split
  · exact try_execvp_stage env i p
  · split
    · exact try_execvp_stage env i _
    · rfl

theorem build_step_last (env : Env) (ha0 : handler) (T0 : FdTable) (i : Nat) (w : World) (c : Nat)
    (inv : ParentInv env ha0 T0 i w) (hlast : i + 1 = ha0.c_input)
    (htok : (tokens_of isDelim (ha0.saved_input i)).length ≤ ha0.n_cmd + 1)
    (hfork : env.fork_pid i = some c) :
    ∃ w1 q, main_build_step env i w = some (.ret w1) ∧ ParentInv env ha0 T0 (i + 1) w1 ∧
      w1.children = w.children ++ [exec_cmd_child env i q] ∧ ChildStart ha0 T0 i w1 q := by
  obtain ⟨ha1, e, -, -, hci, hin, hsv, hnc, -⟩ :=
    sep_args_ok w.parent.ha i (by rw [inv.saved, inv.n_cmd]; exact htok)
  have hN : ha1.c_input = ha0.c_input := hci.trans inv.c_input
  have hcond : ¬ ((i : Int) ≠ (ha1.c_input : Int) - 1) := by omega
  have hfds := inv.fds
  by_cases hi0 : i > 0
  · simp only [main_build_step, e, exec_cmd, exec_cmd_pipe, hcond, if_false, hfork,
      exec_cmd_parent, hi0, if_true]
    refine ⟨_, _, rfl, ?_, rfl, ?_⟩
    · constructor
      · exact hN
      · exact hnc.trans inv.n_cmd
      · exact hsv.trans inv.saved
      · exact hin.trans inv.input
      · intro h; omega
      · intro n
        simp only [lookup_sys_close, hfds]
        have h1 : ¬ (0 < i + 1 ∧ i + 1 < ha0.c_input ∧ n = w.parent.fd (i + 1 - 1) READ) := by omega
        rw [if_neg h1]
        by_cases hn : n = w.parent.fd (i - 1) READ
        · rw [if_pos hn, hn]
          exact (inv.rows_free (i - 1) READ (by omega) (by omega)).symm
        · rw [if_neg hn, if_neg (by tauto)]
      · intro k e hk hk2
        exact inv.rows_free k e (by omega) hk2
      · simp only [List.filter_append, inv.log, spawn_calls_succ]
        simp [is_spawn, hlast]
      · intro k hk
        by_cases hki : k = i
        · simp [hki, hfork]
        · simp only [hki, if_false]
          exact inv.pids k (by omega)
      · simp [inv.stages, List.range_succ, exec_cmd_child_stage]
      · exact inv.freed
      · show w.parent.log ++ [Call.fork i] ++ [Call.close (w.parent.fd (i - 1) READ)] = _
        rw [parent_calls_succ, ← inv.calls]
        simp [stage_calls, hlast, hi0]
    · constructor
      · exact hN
      · rfl
      · rfl
      · exact inv.freed
      · intro h1; omega
      · intro n
        show lookup w.parent.fds n = _
        rw [if_neg (by omega), if_neg (by omega), hfds]
        by_cases hn : n = w.parent.fd (i - 1) READ
        · rw [if_pos ⟨hi0, by omega, hn⟩, if_pos ⟨hi0, hn⟩]
        · rw [if_neg (by tauto), if_neg (by tauto)]
      · intro _ h2; omega
  · have hi00 : i = 0 := by omega
    subst hi00
    simp only [main_build_step, e, exec_cmd, exec_cmd_pipe, hcond, if_false, hfork,
      exec_cmd_parent, hi0]
    refine ⟨_, _, rfl, ?_, rfl, ?_⟩
    · constructor
      · exact hN
      · exact hnc.trans inv.n_cmd
      · exact hsv.trans inv.saved
      · exact hin.trans inv.input
      · intro h; omega
      · intro n
        simp only [hfds]
        rw [if_neg (by omega), if_neg (by omega)]
      · intro k e hk hk2
        omega
      · simp only [List.filter_append, inv.log, spawn_calls_succ]
        simp [is_spawn, hlast]
      · intro k hk
        have hki : k = 0 := by omega
        simp [hki, hfork]
      · simp [inv.stages, List.range_succ, exec_cmd_child_stage]
      · exact inv.freed
      · show w.parent.log ++ [Call.fork 0] = _
        rw [parent_calls_succ, ← inv.calls]
        simp [stage_calls, ← hlast]
    · constructor
      · exact hN
      · rfl
      · rfl
      · exact inv.freed
      · intro _; exact inv.fds_zero rfl
      · intro n
        show lookup w.parent.fds n = _
        rw [if_neg (by omega), if_neg (by omega), if_neg (by omega), hfds, if_neg (by omega)]
      · intro h1 _; omega
theorem build_step_mid (env : Env) (ha0 : handler) (T0 : FdTable) (i : Nat) (w : World) (c : Nat)
    (inv : ParentInv env ha0 T0 i w) (hmid : i + 1 < ha0.c_input)
    (htok : (tokens_of isDelim (ha0.saved_input i)).length ≤ ha0.n_cmd + 1)
    (hpipe : env.pipe_ok i = true)
    (hfork : env.fork_pid i = some c) :
    ∃ w1 q, main_build_step env i w = some (.ret w1) ∧ ParentInv env ha0 T0 (i + 1) w1 ∧
      w1.children = w.children ++ [exec_cmd_child env i q] ∧ ChildStart ha0 T0 i w1 q := by
  obtain ⟨ha1, e, -, -, hci, hin, hsv, hnc, -⟩ :=
    sep_args_ok w.parent.ha i (by rw [inv.saved, inv.n_cmd]; exact htok)
  have hN : ha1.c_input = ha0.c_input := hci.trans inv.c_input
  have hcond : ¬ ((i : Int) = (ha1.c_input : Int) - 1) := by omega
  have hfds := inv.fds
  have hrA := sys_pipe_read_free i w.parent.fds
  have hwA := sys_pipe_write_free i w.parent.fds
  have hne := sys_pipe_ne i w.parent.fds
  have hWR : WRITE ≠ READ := by decide
  have hrT : lookup T0 (sys_pipe i w.parent.fds).1 = none := by
    have := hfds (sys_pipe i w.parent.fds).1
    rw [hrA] at this
    split at this
    · exact Option.noConfusion this
    · exact this.symm
  have hwT : lookup T0 (sys_pipe i w.parent.fds).2.1 = none := by
    have := hfds (sys_pipe i w.parent.fds).2.1
    rw [hwA] at this
    split at this
    · exact Option.noConfusion this
    · exact this.symm
  have hprev : 0 < i → (sys_pipe i w.parent.fds).1 ≠ w.parent.fd (i - 1) READ ∧
      (sys_pipe i w.parent.fds).2.1 ≠ w.parent.fd (i - 1) READ := by
    intro hi0
    have h := hfds (w.parent.fd (i - 1) READ)
    rw [if_pos ⟨hi0, by omega, rfl⟩] at h
    constructor
    · intro h2
      rw [← h2, hrA] at h
      exact Option.noConfusion h
    · intro h2
      rw [← h2, hwA] at h
      exact Option.noConfusion h
  by_cases hi0 : i > 0
  · have him : ¬ (i - 1 = i) := by omega
    simp only [main_build_step, e, exec_cmd, exec_cmd_pipe, ne_eq, hcond, not_false_eq_true,
      if_true, hpipe, hfork, exec_cmd_parent, hi0, hWR, if_false, him]
    refine ⟨_, _, rfl, ?_, rfl, ?_⟩
    · constructor
      · exact hN
      · exact hnc.trans inv.n_cmd
      · exact hsv.trans inv.saved
      · exact hin.trans inv.input
      · intro h; omega
      · intro n
        simp only [lookup_sys_close, lookup_sys_pipe, hfds, Nat.add_sub_cancel, if_true]
        have hpv := inv.rows_free (i - 1) READ (by omega) (by omega)
        obtain ⟨hp1, hp2⟩ := hprev hi0
        by_cases h1 : n = w.parent.fd (i - 1) READ
        · subst h1
          rw [if_pos rfl, if_neg (by intro h; exact hp1 h.2.2.symm), hpv]
        · rw [if_neg h1]
          by_cases h2 : n = (sys_pipe i w.parent.fds).2.1
          · subst h2
            rw [if_pos rfl, if_neg (by intro h; exact hne h.2.2), hwT]
          · rw [if_neg h2, if_neg h2]
            by_cases h3 : n = (sys_pipe i w.parent.fds).1
            · rw [if_pos h3, if_pos ⟨by omega, hmid, h3⟩]
            · rw [if_neg h3, if_neg (by intro h; exact h1 h.2.2), if_neg (by intro h; exact h3 h.2.2)]
      · intro k e hk hk2
        show lookup T0 (if k = i then (if e = READ then (sys_pipe i w.parent.fds).1
          else (sys_pipe i w.parent.fds).2.1) else w.parent.fd k e) = none
        by_cases hki : k = i
        · rw [if_pos hki]
          by_cases he : e = READ
          · rw [if_pos he]; exact hrT
          · rw [if_neg he]; exact hwT
        · rw [if_neg hki]
          exact inv.rows_free k e (by omega) hk2
      · simp only [List.filter_append, inv.log, spawn_calls_succ]
        simp [is_spawn, hmid]
      · intro k hk
        by_cases hki : k = i
        · simp [hki, hfork]
        · simp only [hki, if_false]
          exact inv.pids k (by omega)
      · simp [inv.stages, List.range_succ, exec_cmd_child_stage]
      · exact inv.freed
      · show w.parent.log ++ [Call.pipe i] ++ [Call.fork i] ++
            [Call.close (sys_pipe i w.parent.fds).2.1] ++
            [Call.close (w.parent.fd (i - 1) READ)] = _
        rw [parent_calls_succ, parent_calls_congr ha0.c_input i w.parent.fd _
          (fun k e hk => by simp [Nat.ne_of_lt hk]), ← inv.calls]
        simp [stage_calls, hmid, hi0, hWR, him]
    · constructor
      · exact hN
      · rfl
      · rfl
      · exact inv.freed
      · intro h1; omega
      · intro n
        simp only [lookup_sys_pipe, hfds, eq_self_iff_true, if_true, hWR, if_false, him, hmid,
          true_and, hi0]
        have hiN : i < ha0.c_input := by omega
        simp only [hiN, true_and]
      · intro _ _
        obtain ⟨hp1, hp2⟩ := hprev hi0
        simp only [eq_self_iff_true, if_true, hWR, if_false, him]
        exact ⟨fun h => hp2 h.symm, fun h => hp1 h.symm⟩
  · have hi00 : i = 0 := by omega
    subst hi00
    simp only [main_build_step, e, exec_cmd, exec_cmd_pipe, ne_eq, hcond, not_false_eq_true,
      if_true, hpipe, hfork, exec_cmd_parent, hi0, hWR, if_false]
    refine ⟨_, _, rfl, ?_, rfl, ?_⟩
    · constructor
      · exact hN
      · exact hnc.trans inv.n_cmd
      · exact hsv.trans inv.saved
      · exact hin.trans inv.input
      · intro h; omega
      · intro n
        simp only [lookup_sys_close, lookup_sys_pipe, hfds, Nat.add_sub_cancel, if_true]
        by_cases h2 : n = (sys_pipe 0 w.parent.fds).2.1
        · subst h2
          rw [if_pos rfl, if_neg (by intro h; exact hne h.2.2), hwT]
        · rw [if_neg h2, if_neg h2]
          by_cases h3 : n = (sys_pipe 0 w.parent.fds).1
          · rw [if_pos h3, if_pos ⟨by omega, hmid, h3⟩]
          · rw [if_neg h3, if_neg (by omega), if_neg (by intro h; exact h3 h.2.2)]
      · intro k e hk hk2
        have hk0 : k = 0 := by omega
        subst hk0
        show lookup T0 (if (0 : Nat) = 0 then (if e = READ then (sys_pipe 0 w.parent.fds).1
          else (sys_pipe 0 w.parent.fds).2.1) else w.parent.fd 0 e) = none
        rw [if_pos rfl]
        by_cases he : e = READ
        · rw [if_pos he]; exact hrT
        · rw [if_neg he]; exact hwT
      · simp only [List.filter_append, inv.log, spawn_calls_succ]
        simp [is_spawn, hmid]
      · intro k hk
        have hki : k = 0 := by omega
        simp [hki, hfork]
      · simp [inv.stages, List.range_succ, exec_cmd_child_stage]
      · exact inv.freed
      · show w.parent.log ++ [Call.pipe 0] ++ [Call.fork 0] ++
            [Call.close (sys_pipe 0 w.parent.fds).2.1] = _
        rw [parent_calls_succ, parent_calls_congr ha0.c_input 0 w.parent.fd _
          (fun k e hk => by omega), ← inv.calls]
        simp [stage_calls, hmid, hWR]
    · constructor
      · exact hN
      · rfl
      · rfl
      · exact inv.freed
      · intro h1; omega
      · intro n
        simp only [lookup_sys_pipe, hfds, eq_self_iff_true, if_true, hWR, if_false, hmid,
          true_and, hi0, false_and]
      · intro h1 _; omega
theorem build_step (env : Env) (ha0 : handler) (T0 : FdTable) (i : Nat) (w : World)
    (inv : ParentInv env ha0 T0 i w) (hi : i < ha0.c_input) (hok : StageOk env ha0 i) :
    ∃ w1 q, main_build_step env i w = some (.ret w1) ∧ ParentInv env ha0 T0 (i + 1) w1 ∧
      w1.children = w.children ++ [exec_cmd_child env i q] ∧ ChildStart ha0 T0 i w1 q := by
  obtain ⟨htok, hpipe, hfork⟩ := hok
  obtain ⟨c, hc⟩ := Option.ne_none_iff_exists'.1 hfork
  by_cases hlast : i + 1 = ha0.c_input
  · exact build_step_last env ha0 T0 i w c inv hlast htok hc
  · exact build_step_mid env ha0 T0 i w c inv (by omega) htok (hpipe (by omega)) hc

theorem build_split (env : Env) (a b i : Nat) (w : World) :
    main_build_from env (a + b) i w =
      match main_build_from env a i w with
      | some (.ret w1) => main_build_from env b (i + a) w1
      | r => r := by
  induction a generalizing i w with
  | zero => simp [main_build_from]
  | succ a ih =>
    rw [show a + 1 + b = (a + b) + 1 by omega]
    simp only [main_build_from]
    cases h : main_build_step env i w with
    | none => rfl
    | some r =>
      cases r with
      | ret w1 =>
        simp only []
        rw [ih, show i + 1 + a = i + (a + 1) by omega]
      | exit code q => rfl

theorem build_upto (env : Env) (ha0 : handler) (T0 : FdTable) (k i : Nat) (w : World)
    (inv : ParentInv env ha0 T0 i w) (hk : i + k ≤ ha0.c_input)
    (hok : ∀ j, i ≤ j → j < i + k → StageOk env ha0 j) :
    ∃ w1, main_build_from env k i w = some (.ret w1) ∧ ParentInv env ha0 T0 (i + k) w1 ∧
      ∃ l, w1.children = w.children ++ l := by
  induction k generalizing i w with
  | zero => exact ⟨w, rfl, inv, [], by simp⟩
  | succ k ih =>
    obtain ⟨w1, q, e, inv1, hch, -⟩ :=
      build_step env ha0 T0 i w inv (by omega) (hok i (Nat.le_refl _) (by omega))
    obtain ⟨w2, e2, inv2, l, hl⟩ := ih (i + 1) w1 inv1 (by omega)
      (fun j h1 h2 => hok j (by omega) (by omega))
    refine ⟨w2, ?_, ?_, exec_cmd_child env i q :: l, ?_⟩
    · simp only [main_build_from, e, e2]
    · rw [show i + (k + 1) = i + 1 + k by omega]
      exact inv2
    · rw [hl, hch]
      simp

theorem start_inv (env : Env) (ha : handler) (t : FdTable) (fd : Nat → Nat → Nat)
    (pid : Nat → Nat) : ParentInv env ha t 0 (start ha t fd pid) := by
  constructor
  · rfl
  · rfl
  · rfl
  · rfl
  · intro _; rfl
  · intro n
    rw [if_neg (by omega)]
    rfl
  · intro k e hk; omega
  · rfl
  · intro k hk; omega
  · rfl
  · rfl
  · rfl

theorem build_all (env : Env) (ha : handler) (t : FdTable) (fd : Nat → Nat → Nat)
    (pid : Nat → Nat) (hok : ∀ j, j < ha.c_input → StageOk env ha j) :
    ∃ w, main_build env (start ha t fd pid) = some (.ret w) ∧
      ParentInv env ha t ha.c_input w := by
  obtain ⟨w, e, inv, -⟩ := build_upto env ha t ha.c_input 0 (start ha t fd pid)
    (start_inv env ha t fd pid) (by omega) (fun j _ h => hok j (by omega))
  refine ⟨w, e, ?_⟩
  rw [Nat.zero_add] at inv
  exact inv

theorem stageOk_of (env : Env) (ha : handler)
    (hcap : ha.n_cmd = 50)
    (htok : ∀ i, i < ha.c_input → (tokens_of isDelim (ha.saved_input i)).length ≤ 50)
    (hpipe : ∀ i, i + 1 < ha.c_input → env.pipe_ok i = true)
    (hfork : ∀ i, i < ha.c_input → env.fork_pid i ≠ none) :
    ∀ j, j < ha.c_input → StageOk env ha j := by
  intro j hj
  refine ⟨?_, hpipe j, hfork j hj⟩
  have := htok j hj
  omega

theorem mem_spawn_calls_pipe (n k i : Nat) :
    Call.pipe i ∈ spawn_calls n k ↔ i < k ∧ i + 1 < n := by
  simp only [spawn_calls, List.mem_flatMap, List.mem_range, List.mem_append, List.mem_singleton]
  constructor
  · rintro ⟨j, hj, h | h⟩
    · split at h
      · simp only [List.mem_singleton, Call.pipe.injEq] at h
        subst h
        exact ⟨hj, by assumption⟩
      · simp at h
    · exact Call.noConfusion h
  · rintro ⟨h1, h2⟩
    exact ⟨i, h1, Or.inl (by simp [h2])⟩

theorem mem_spawn_calls_fork (n k i : Nat) :
    Call.fork i ∈ spawn_calls n k ↔ i < k := by
  simp only [spawn_calls, List.mem_flatMap, List.mem_range, List.mem_append, List.mem_singleton]
  constructor
  · rintro ⟨j, hj, h | h⟩
    · split at h
      · simp at h
      · simp at h
    · simp only [Call.fork.injEq] at h
      subst h
      exact hj
  · intro h1
    exact ⟨i, h1, Or.inr rfl⟩

theorem mem_log_of_spawn (l : List Call) (c : Call) (hc : is_spawn c = true) :
    c ∈ l.filter is_spawn ↔ c ∈ l := by
  simp [List.mem_filter, hc]

theorem mem_parent_calls (n : Nat) (fd : Nat → Nat → Nat) (i j : Nat) (c : Call) (hj : j < i)
    (hc : c ∈ stage_calls n fd j) : c ∈ parent_calls n fd i := by
  simp only [parent_calls, List.mem_flatMap, List.mem_range]
  exact ⟨j, hj, hc⟩

/-- C1: when every `pipe` and `fork` succeeds, the building loop of `main` runs
to its end, every pipe `i < N-1` has been created, the parent has called
`close` on `fd[i][WRITE]` and on `fd[i][READ]`, and afterwards the parent's
descriptor table is what it was before the loop: no descriptor is open on
either end of any pipe. -/
theorem parent_descriptor_hygiene (env : Env) (ha : handler) (t : FdTable)
    (fd : Nat → Nat → Nat) (pid : Nat → Nat)
    (hcap : ha.n_cmd = 50)
    (htok : ∀ i, i < ha.c_input → (tokens_of isDelim (ha.saved_input i)).length ≤ 50)
    (hpipe : ∀ i, i + 1 < ha.c_input → env.pipe_ok i = true)
    (hfork : ∀ i, i < ha.c_input → env.fork_pid i ≠ none)
    (hnp : noPipe t = true) :
    ∃ w, main_build env (start ha t fd pid) = some (.ret w) ∧
      (∀ i, i + 1 < ha.c_input → Call.pipe i ∈ w.parent.log ∧
        Call.close (w.parent.fd i WRITE) ∈ w.parent.log ∧
        Call.close (w.parent.fd i READ) ∈ w.parent.log) ∧
      (∀ n, lookup w.parent.fds n = lookup t n) ∧
      (∀ n i, lookup w.parent.fds n ≠ some (File.pipeRead i) ∧
        lookup w.parent.fds n ≠ some (File.pipeWrite i)) := by
  obtain ⟨w, e, inv⟩ := build_all env ha t fd pid (stageOk_of env ha hcap htok hpipe hfork)
  have hfds : ∀ n, lookup w.parent.fds n = lookup t n := by
    intro n
    rw [inv.fds n, if_neg (by omega)]
  refine ⟨w, e, ?_, hfds, ?_⟩
  · intro i hi
    rw [inv.calls]
    refine ⟨?_, ?_, ?_⟩
    · exact mem_parent_calls _ _ _ i _ (by omega) (by simp [stage_calls, hi])
    · exact mem_parent_calls _ _ _ i _ (by omega) (by simp [stage_calls, hi])
    · exact mem_parent_calls _ _ _ (i + 1) _ (by omega) (by simp [stage_calls])
  · intro n i
    rw [hfds]
    exact noPipe_lookup t hnp n i

/-- Witness for C1: three stages started with the standard descriptors. -/
theorem parent_descriptor_hygiene_witness :
    ∃ w, main_build (sample_env []) (sample_world 3) =
        some (.ret w) ∧
      (∀ i, i + 1 < (sample_handler 3).c_input → Call.pipe i ∈ w.parent.log ∧
        Call.close (w.parent.fd i WRITE) ∈ w.parent.log ∧
        Call.close (w.parent.fd i READ) ∈ w.parent.log) ∧
      (∀ n, lookup w.parent.fds n = lookup std_table n) ∧
      (∀ n i, lookup w.parent.fds n ≠ some (File.pipeRead i) ∧
        lookup w.parent.fds n ≠ some (File.pipeWrite i)) :=
  parent_descriptor_hygiene (sample_env []) (sample_handler 3) std_table (fun _ _ => 0)
    (fun _ => 0) rfl (fun _ _ => by
      show (tokens_of isDelim ['c', 'a', 't', '\n']).length ≤ 50
      decide)
    (fun _ _ => rfl)
    (fun i _ => by simp [sample_env]) (by decide)

/-- C5: when every `pipe` and `fork` succeeds, the parent's calls in the
building loop are, for stage 0, 1, ..., N-1 in turn, `pipe(fd[i])` (only when
`i < N-1`) immediately followed by `fork()` and then its `close` calls; so
pipe `i` is created iff `i < N-1`, exactly `N` children are forked, in stage
order, the pid of stage `i` is stored in `pid[i]`, and with no line nothing is
called at all. -/
theorem pipe_and_process_count (env : Env) (ha : handler) (t : FdTable)
    (fd : Nat → Nat → Nat) (pid : Nat → Nat)
    (hcap : ha.n_cmd = 50)
    (htok : ∀ i, i < ha.c_input → (tokens_of isDelim (ha.saved_input i)).length ≤ 50)
    (hpipe : ∀ i, i + 1 < ha.c_input → env.pipe_ok i = true)
    (hfork : ∀ i, i < ha.c_input → env.fork_pid i ≠ none) :
    ∃ w, main_build env (start ha t fd pid) = some (.ret w) ∧
      w.parent.log = parent_calls ha.c_input w.parent.fd ha.c_input ∧
      w.parent.log.filter is_spawn = spawn_calls ha.c_input ha.c_input ∧
      (∀ i, Call.pipe i ∈ w.parent.log ↔ i + 1 < ha.c_input) ∧
      (∀ i, Call.fork i ∈ w.parent.log ↔ i < ha.c_input) ∧
      w.children.map Child.stage = List.range ha.c_input ∧
      w.children.length = ha.c_input ∧
      (∀ i, i < ha.c_input → env.fork_pid i = some (w.parent.pid i)) ∧
      (ha.c_input = 0 → w.parent.log = [] ∧ w.children = []) := by
  obtain ⟨w, e, inv⟩ := build_all env ha t fd pid (stageOk_of env ha hcap htok hpipe hfork)
  refine ⟨w, e, inv.calls, inv.log, ?_, ?_, inv.stages, ?_, inv.pids, ?_⟩
  · intro i
    rw [← mem_log_of_spawn w.parent.log (Call.pipe i) rfl, inv.log, mem_spawn_calls_pipe]
    omega
  · intro i
    rw [← mem_log_of_spawn w.parent.log (Call.fork i) rfl, inv.log, mem_spawn_calls_fork]
  · have := congrArg List.length inv.stages
    simpa using this
  · intro h0
    have e2 : main_build env (start ha t fd pid) = some (.ret (start ha t fd pid)) := by
      show main_build_from env ha.c_input 0 (start ha t fd pid) = _
      rw [h0]
      rfl
    rw [e2] at e
    simp only [Option.some.injEq, Run.ret.injEq] at e
    subst e
    exact ⟨rfl, rfl⟩

/-- Witness for C5: three stages. -/
theorem pipe_and_process_count_witness :
    ∃ w, main_build (sample_env []) (sample_world 3) =
        some (.ret w) ∧
      w.parent.log = parent_calls 3 w.parent.fd 3 ∧
      w.parent.log.filter is_spawn = spawn_calls 3 3 ∧
      (∀ i, Call.pipe i ∈ w.parent.log ↔ i + 1 < 3) ∧
      (∀ i, Call.fork i ∈ w.parent.log ↔ i < 3) ∧
      w.children.map Child.stage = List.range 3 ∧
      w.children.length = 3 ∧
      (∀ i, i < 3 → (sample_env []).fork_pid i = some (w.parent.pid i)) ∧
      ((3 : Nat) = 0 → w.parent.log = [] ∧ w.children = []) :=
  pipe_and_process_count (sample_env []) (sample_handler 3) std_table (fun _ _ => 0)
    (fun _ => 0) rfl (fun _ _ => by
      show (tokens_of isDelim ['c', 'a', 't', '\n']).length ≤ 50
      decide)
    (fun _ _ => rfl)
    (fun i _ => by simp [sample_env])

/-! ## The child -/

theorem try_execvp_at (env : Env) (i : Nat) (p : Proc) :
    (try_execvp env i p).at_execvp =
      some { p with log := p.log ++ [Call.execvp (p.ha.args 0)] } := by
  unfold try_execvp
  split <;> rfl

theorem close_unused_succ (j : Nat) (p : Proc) :
    close_unused (j + 1) p =
      { close_unused j p with
        fds := sys_close ((close_unused j p).fd j READ)
          (sys_close ((close_unused j p).fd j WRITE) (close_unused j p).fds),
        log := (close_unused j p).log ++
          [Call.close ((close_unused j p).fd j WRITE), Call.close ((close_unused j p).fd j READ)] } := by
  simp [close_unused, List.range_succ, List.foldl_append]

theorem close_unused_keeps (j : Nat) (p : Proc) :
    (close_unused j p).fd = p.fd ∧ (close_unused j p).ha = p.ha ∧
      (close_unused j p).freed = p.freed := by
  induction j with
  | zero => exact ⟨rfl, rfl, rfl⟩
  | succ j ih =>
    rw [close_unused_succ]
    exact ih

theorem close_unused_lookup (j : Nat) (p : Proc) (n : Nat)
    (h : ∀ k e, k < j → p.fd k e ≠ n) :
    lookup (close_unused j p).fds n = lookup p.fds n := by
  induction j with
  | zero => rfl
  | succ j ih =>
    rw [close_unused_succ]
    simp only [lookup_sys_close, (close_unused_keeps j p).1]
    rw [if_neg (fun hn => h j READ (by omega) hn.symm),
      if_neg (fun hn => h j WRITE (by omega) hn.symm)]
    exact ih (fun k e hk => h k e (by omega))

theorem safe_dup_write (env : Env) (i : Nat) (row : Nat → Nat) (p : Proc) (f : File)
    (hok : env.dup2_ok i WRITE = true) (hl : lookup p.fds (row WRITE) = some f) :
    safe_dup env i WRITE row p =
      .ret { p with log := p.log ++ [Call.dup2 (row WRITE) STDOUT_FILENO],
                    fds := install p.fds STDOUT_FILENO (some f) } := by
  simp [safe_dup, hok, sys_dup2, hl]

theorem safe_dup_read (env : Env) (i : Nat) (row : Nat → Nat) (p : Proc) (f : File)
    (hok : env.dup2_ok i READ = true) (hl : lookup p.fds (row READ) = some f) :
    safe_dup env i READ row p =
      .ret { p with log := p.log ++ [Call.dup2 (row READ) STDIN_FILENO],
                    fds := install p.fds STDIN_FILENO (some f) } := by
  have hRW : READ ≠ WRITE := by decide
  simp [safe_dup, hRW, hok, sys_dup2, hl]

theorem child_at_of_redirect (env : Env) (i : Nat) (q0 p1 : Proc) (h1 : ¬ q0.ha.c_input = 1)
    (hr : exec_cmd_redirect env i q0 = .ret p1) :
    (exec_cmd_child env i q0).at_execvp =
      some { close_unused i p1 with
        log := (close_unused i p1).log ++ [Call.execvp ((close_unused i p1).ha.args 0)] } := by
  unfold exec_cmd_child
  rw [if_neg h1, hr]
  simp only []
  rw [try_execvp_at]

theorem redirect_ok (env : Env) (ha0 : handler) (T0 : FdTable) (i : Nat) (w1 : World) (q0 : Proc)
    (cs : ChildStart ha0 T0 i w1 q0) (hi : i < ha0.c_input) (h1 : ¬ ha0.c_input = 1)
    (hrows : ∀ k e, k < i + 1 → k + 1 < ha0.c_input → lookup T0 (q0.fd k e) = none)
    (hstd0 : lookup T0 STDIN_FILENO ≠ none) (hstd1 : lookup T0 STDOUT_FILENO ≠ none)
    (hdup : ∀ e, env.dup2_ok i e = true) :
    ∃ p1, exec_cmd_redirect env i q0 = .ret p1 ∧ p1.fd = q0.fd ∧ p1.freed = q0.freed ∧
      lookup p1.fds STDOUT_FILENO =
        (if i + 1 < ha0.c_input then some (File.pipeWrite i) else lookup T0 STDOUT_FILENO) ∧
      lookup p1.fds STDIN_FILENO =
        (if 0 < i then some (File.pipeRead (i - 1)) else lookup T0 STDIN_FILENO) := by
  have hci := cs.c_input
  have hfds := cs.fds
  have h01 : STDOUT_FILENO ≠ STDIN_FILENO := by decide
  have hne0 : ∀ k e, k < i + 1 → k + 1 < ha0.c_input → q0.fd k e ≠ STDIN_FILENO := by
    intro k e h1 h2 h3
    have := hrows k e h1 h2
    rw [h3] at this
    exact hstd0 this
  have hne1 : ∀ k e, k < i + 1 → k + 1 < ha0.c_input → q0.fd k e ≠ STDOUT_FILENO := by
    intro k e h1 h2 h3
    have := hrows k e h1 h2
    rw [h3] at this
    exact hstd1 this
  have hq1 : lookup q0.fds STDOUT_FILENO = lookup T0 STDOUT_FILENO := by
    rw [hfds]
    rw [if_neg (fun h => hne1 i WRITE (by omega) h.1 h.2.symm),
      if_neg (fun h => hne1 i READ (by omega) h.1 h.2.symm),
      if_neg (fun h => hne1 (i - 1) READ (by omega) (by omega) h.2.symm)]
  have hq0 : lookup q0.fds STDIN_FILENO = lookup T0 STDIN_FILENO := by
    rw [hfds]
    rw [if_neg (fun h => hne0 i WRITE (by omega) h.1 h.2.symm),
      if_neg (fun h => hne0 i READ (by omega) h.1 h.2.symm),
      if_neg (fun h => hne0 (i - 1) READ (by omega) (by omega) h.2.symm)]
  by_cases hlast : i + 1 = ha0.c_input
  · -- the last stage: only standard input is redirected
    have hi0 : 0 < i := by omega
    have hsrc : lookup q0.fds (q0.fd (i - 1) READ) = some (File.pipeRead (i - 1)) := by
      rw [hfds, if_neg (by omega), if_neg (by omega), if_pos ⟨hi0, rfl⟩]
    refine ⟨{ q0 with log := q0.log ++ [Call.dup2 (q0.fd (i - 1) READ) STDIN_FILENO],
                      fds := install q0.fds STDIN_FILENO (some (File.pipeRead (i - 1))) },
      ?_, rfl, rfl, ?_, ?_⟩
    · unfold exec_cmd_redirect
      rw [if_pos (by omega), safe_dup_read env i (q0.fd (i - 1)) q0 _ (hdup READ) hsrc]
    · simp only []
      rw [lookup_install, if_neg h01, if_neg (by omega)]
      exact hq1
    · simp only []
      rw [lookup_install, if_pos rfl, if_pos hi0]
  · have hmid : i + 1 < ha0.c_input := by omega
    have hsrcW : lookup q0.fds (q0.fd i WRITE) = some (File.pipeWrite i) := by
      rw [hfds, if_pos ⟨hmid, rfl⟩]
    by_cases hi0 : i = 0
    · -- the first stage: only standard output is redirected
      subst hi0
      refine ⟨{ q0 with log := q0.log ++ [Call.dup2 (q0.fd 0 WRITE) STDOUT_FILENO],
                        fds := install q0.fds STDOUT_FILENO (some (File.pipeWrite 0)) },
        ?_, rfl, rfl, ?_, ?_⟩
      · unfold exec_cmd_redirect
        rw [if_neg (by omega), if_pos rfl,
          safe_dup_write env 0 (q0.fd 0) q0 _ (hdup WRITE) hsrcW]
      · simp only []
        rw [lookup_install, if_pos rfl, if_pos hmid]
      · simp only []
        rw [lookup_install, if_neg (Ne.symm h01), if_neg (by omega)]
        exact hq0
    · -- a middle stage: both are redirected
      have hi1 : 0 < i := by omega
      obtain ⟨hpw, hpr⟩ := cs.prev_ne hi1 hmid
      have hsrcR : lookup (install q0.fds STDOUT_FILENO (some (File.pipeWrite i)))
          (q0.fd (i - 1) READ) = some (File.pipeRead (i - 1)) := by
        rw [lookup_install, if_neg (hne1 (i - 1) READ (by omega) (by omega)), hfds,
          if_neg (fun h => hpw h.2), if_neg (fun h => hpr h.2), if_pos ⟨hi1, rfl⟩]
      refine ⟨{ q0 with
          log := q0.log ++ [Call.dup2 (q0.fd i WRITE) STDOUT_FILENO] ++
            [Call.dup2 (q0.fd (i - 1) READ) STDIN_FILENO],
          fds := install (install q0.fds STDOUT_FILENO (some (File.pipeWrite i)))
            STDIN_FILENO (some (File.pipeRead (i - 1))) },
        ?_, rfl, rfl, ?_, ?_⟩
      · unfold exec_cmd_redirect
        rw [if_neg (by omega), if_neg hi0,
          safe_dup_write env i (q0.fd i) q0 _ (hdup WRITE) hsrcW]
        simp only []
        rw [safe_dup_read env i _ _ _ (hdup READ) hsrcR]
      · simp only []
        rw [lookup_install, if_neg h01, lookup_install, if_pos rfl, if_pos hmid]
      · simp only []
        rw [lookup_install, if_pos rfl, if_pos hi1]

theorem child_wired (env : Env) (ha0 : handler) (T0 : FdTable) (i : Nat) (w1 : World) (q0 : Proc)
    (cs : ChildStart ha0 T0 i w1 q0) (hi : i < ha0.c_input)
    (hrows : ∀ k e, k < i + 1 → k + 1 < ha0.c_input → lookup T0 (q0.fd k e) = none)
    (hstd0 : lookup T0 STDIN_FILENO ≠ none) (hstd1 : lookup T0 STDOUT_FILENO ≠ none)
    (hdup : ∀ e, env.dup2_ok i e = true) :
    ∃ q, (exec_cmd_child env i q0).at_execvp = some q ∧
      lookup q.fds STDOUT_FILENO =
        (if i + 1 < ha0.c_input then some (File.pipeWrite i) else lookup T0 STDOUT_FILENO) ∧
      lookup q.fds STDIN_FILENO =
        (if 0 < i then some (File.pipeRead (i - 1)) else lookup T0 STDIN_FILENO) ∧
      (ha0.c_input = 1 → q.fds = T0 ∧ q.log = [Call.execvp (q.ha.args 0)]) ∧
      q.freed = false := by
  have hci := cs.c_input
  have hfds := cs.fds
  by_cases h1 : ha0.c_input = 1
  · have hi0 : i = 0 := by omega
    refine ⟨{ q0 with log := q0.log ++ [Call.execvp (q0.ha.args 0)] }, ?_, ?_, ?_, ?_, cs.freed⟩
    · unfold exec_cmd_child
      rw [if_pos (by omega), try_execvp_at]
    · show lookup q0.fds STDOUT_FILENO = _
      rw [hfds, if_neg (by omega), if_neg (by omega), if_neg (by omega), if_neg (by omega)]
    · show lookup q0.fds STDIN_FILENO = _
      rw [hfds, if_neg (by omega), if_neg (by omega), if_neg (by omega), if_neg (by omega)]
    · intro _
      exact ⟨cs.fds_single h1, by simp [cs.log]⟩
  · obtain ⟨p1, hr, hfd, hfr, ho, hin⟩ :=
      redirect_ok env ha0 T0 i w1 q0 cs hi h1 hrows hstd0 hstd1 hdup
    refine ⟨_, child_at_of_redirect env i q0 p1 (by omega) hr, ?_, ?_, ?_, ?_⟩
    · simp only []
      rw [close_unused_lookup, ho]
      intro k e hk h3
      have := hrows k e (by omega) (by omega)
      rw [hfd] at h3
      rw [h3] at this
      exact hstd1 this
    · simp only []
      rw [close_unused_lookup, hin]
      intro k e hk h3
      have := hrows k e (by omega) (by omega)
      rw [hfd] at h3
      rw [h3] at this
      exact hstd0 this
    · intro h; exact absurd h h1
    · simp only []
      rw [(close_unused_keeps _ _).2.2, hfr]
      exact cs.freed

theorem child_at_stage (env : Env) (ha : handler) (t : FdTable) (fd : Nat → Nat → Nat)
    (pid : Nat → Nat) (i : Nat) (hi : i < ha.c_input)
    (hok : ∀ j, j < ha.c_input → StageOk env ha j) :
    ∃ w1 q0, child_of (main_build env (start ha t fd pid)) i = some (exec_cmd_child env i q0) ∧
      ChildStart ha t i w1 q0 ∧ ParentInv env ha t (i + 1) w1 := by
  obtain ⟨wi, ei, invi, -⟩ := build_upto env ha t i 0 (start ha t fd pid)
    (start_inv env ha t fd pid) (by omega) (fun j _ h => hok j (by omega))
  rw [Nat.zero_add] at invi
  obtain ⟨w1, q0, e1, inv1, hch, cs⟩ := build_step env ha t i wi invi hi (hok i hi)
  obtain ⟨wN, eN, -, l, hl⟩ := build_upto env ha t (ha.c_input - (i + 1)) (i + 1) w1 inv1
    (by omega) (fun j _ h => hok j (by omega))
  have hlen : wi.children.length = i := by
    have := congrArg List.length invi.stages
    simpa using this
  have hrun : main_build env (start ha t fd pid) = some (.ret wN) := by
    show main_build_from env ha.c_input 0 (start ha t fd pid) = _
    rw [show ha.c_input = i + (1 + (ha.c_input - (i + 1))) by omega, build_split, ei]
    simp only []
    rw [show 1 + (ha.c_input - (i + 1)) = (ha.c_input - (i + 1)) + 1 by omega]
    simp only [main_build_from, Nat.zero_add, e1]
    exact eN
  refine ⟨w1, q0, ?_, cs, inv1⟩
  rw [hrun]
  show wN.children[i]? = _
  rw [hl, hch, List.append_assoc, List.getElem?_append_right (by omega), hlen]
  simp

/-- C3: when every call succeeds and descriptors 0 and 1 are open at the start,
the child of stage `i` reaches `execvp` with standard output on the write end
of pipe `i` iff `i < N-1` (else its standard output is the inherited one), and
with standard input on the read end of pipe `i-1` iff `i > 0` (else the
inherited one); with a single stage the child's table is the inherited one
and `execvp` is its only call. -/
theorem child_wiring (env : Env) (ha : handler) (t : FdTable) (fd : Nat → Nat → Nat)
    (pid : Nat → Nat) (i : Nat) (hi : i < ha.c_input)
    (hcap : ha.n_cmd = 50)
    (htok : ∀ j, j < ha.c_input → (tokens_of isDelim (ha.saved_input j)).length ≤ 50)
    (hpipe : ∀ j, j + 1 < ha.c_input → env.pipe_ok j = true)
    (hfork : ∀ j, j < ha.c_input → env.fork_pid j ≠ none)
    (hdup : ∀ e, env.dup2_ok i e = true)
    (hstd0 : lookup t STDIN_FILENO ≠ none) (hstd1 : lookup t STDOUT_FILENO ≠ none)
    (hnp : noPipe t = true) :
    ∃ c q, child_of (main_build env (start ha t fd pid)) i = some c ∧ c.stage = i ∧
      c.at_execvp = some q ∧
      (lookup q.fds STDOUT_FILENO = some (File.pipeWrite i) ↔ i + 1 < ha.c_input) ∧
      (i + 1 = ha.c_input → lookup q.fds STDOUT_FILENO = lookup t STDOUT_FILENO) ∧
      (lookup q.fds STDIN_FILENO = some (File.pipeRead (i - 1)) ↔ 0 < i) ∧
      (i = 0 → lookup q.fds STDIN_FILENO = lookup t STDIN_FILENO) ∧
      (ha.c_input = 1 → q.fds = t ∧ q.log = [Call.execvp (q.ha.args 0)]) := by
  obtain ⟨w1, q0, hc, cs, inv1⟩ := child_at_stage env ha t fd pid i hi
    (stageOk_of env ha hcap htok hpipe hfork)
  obtain ⟨q, hq, ho, hin, hone, -⟩ := child_wired env ha t i w1 q0 cs hi
    (by
      intro k e hk hk2
      rw [cs.fd]
      exact inv1.rows_free k e hk hk2)
    hstd0 hstd1 hdup
  refine ⟨_, q, hc, exec_cmd_child_stage env i q0, hq, ?_, ?_, ?_, ?_, hone⟩
  · rw [ho]
    constructor
    · intro h
      by_contra hn
      rw [if_neg hn] at h
      exact (noPipe_lookup t hnp STDOUT_FILENO i).2 h
    · intro h
      rw [if_pos h]
  · intro h
    rw [ho, if_neg (by omega)]
  · rw [hin]
    constructor
    · intro h
      by_contra hn
      rw [if_neg hn] at h
      exact (noPipe_lookup t hnp STDIN_FILENO (i - 1)).1 h
    · intro h
      rw [if_pos h]
  · intro h
    rw [hin, if_neg (by omega)]

/-- Witness for C3: the middle stage of three. -/
theorem child_wiring_witness :
    ∃ c q, child_of (main_build (sample_env [])
        (sample_world 3)) 1 = some c ∧
      c.stage = 1 ∧ c.at_execvp = some q ∧
      (lookup q.fds STDOUT_FILENO = some (File.pipeWrite 1) ↔ 1 + 1 < (sample_handler 3).c_input) ∧
      (1 + 1 = (sample_handler 3).c_input → lookup q.fds STDOUT_FILENO = lookup std_table STDOUT_FILENO) ∧
      (lookup q.fds STDIN_FILENO = some (File.pipeRead (1 - 1)) ↔ 0 < 1) ∧
      (1 = 0 → lookup q.fds STDIN_FILENO = lookup std_table STDIN_FILENO) ∧
      ((sample_handler 3).c_input = 1 → q.fds = std_table ∧ q.log = [Call.execvp (q.ha.args 0)]) :=
  child_wiring (sample_env []) (sample_handler 3) std_table (fun _ _ => 0) (fun _ => 0) 1
    (by decide) rfl
    (fun _ _ => by
      show (tokens_of isDelim ['c', 'a', 't', '\n']).length ≤ 50
      decide)
    (fun _ _ => rfl) (fun i _ => by simp [sample_env]) (fun _ => rfl)
    (by decide) (by decide) (by decide)

/-! ## Failure of `pipe` or `fork` -/

theorem build_step_fail (env : Env) (ha0 : handler) (T0 : FdTable) (i : Nat) (w : World)
    (inv : ParentInv env ha0 T0 i w) (hi : i < ha0.c_input)
    (htok : (tokens_of isDelim (ha0.saved_input i)).length ≤ ha0.n_cmd + 1)
    (hin : lookup T0 ha0.input ≠ none)
    (hfail : (i + 1 < ha0.c_input ∧ env.pipe_ok i = false) ∨
      ((i + 1 < ha0.c_input → env.pipe_ok i = true) ∧ env.fork_pid i = none)) :
    ∃ q, main_build_step env i w = some (.exit env.errno q) ∧ q.freed = true ∧
      q.log.getLast? = some (Call.fclose ha0.input) ∧
      (0 < i → lookup q.fds (q.fd (i - 1) READ) = some (File.pipeRead (i - 1))) ∧
      (i + 1 < ha0.c_input → env.pipe_ok i = true →
        lookup q.fds (q.fd i READ) = some (File.pipeRead i) ∧
        lookup q.fds (q.fd i WRITE) = some (File.pipeWrite i)) := by
  obtain ⟨ha1, e, -, -, hci, hinp, hsv, hnc, -⟩ :=
    sep_args_ok w.parent.ha i (by rw [inv.saved, inv.n_cmd]; exact htok)
  have hN : ha1.c_input = ha0.c_input := hci.trans inv.c_input
  have hI : ha1.input = ha0.input := hinp.trans inv.input
  have hN0 : ha1.c_input ≠ 0 := by omega
  have hfds := inv.fds
  have hWR : WRITE ≠ READ := by decide
  -- the read end kept from the previous stage
  have hprevA : 0 < i → lookup w.parent.fds (w.parent.fd (i - 1) READ) =
      some (File.pipeRead (i - 1)) := by
    intro hi0
    rw [hfds, if_pos ⟨hi0, hi, rfl⟩]
  have hprevI : 0 < i → w.parent.fd (i - 1) READ ≠ ha0.input := by
    intro hi0 h
    have := inv.rows_free (i - 1) READ (by omega) (by omega)
    rw [h] at this
    exact hin this
  have hfree : ∀ n, lookup w.parent.fds n = none → n ≠ ha0.input := by
    intro n hn h
    have := hfds n
    rw [hn] at this
    split at this
    · exact Option.noConfusion this
    · rw [h] at this
      exact hin this.symm
  rcases hfail with ⟨hmid, hp⟩ | ⟨hp, hf⟩
  · -- `pipe` fails
    have hcond : ¬ ((i : Int) = (ha1.c_input : Int) - 1) := by omega
    simp only [main_build_step, e, exec_cmd, exec_cmd_pipe, ne_eq, hcond, not_false_eq_true,
      if_true, hp, Bool.false_eq_true, if_false, safe_exit, hN0, hI]
    refine ⟨_, rfl, rfl, by simp, ?_, ?_⟩
    · intro hi0
      simp only [lookup_sys_close]
      rw [if_neg (hprevI hi0)]
      exact hprevA hi0
    · intro _ h
      exact absurd h (by simp)
  · by_cases hlast : i + 1 = ha0.c_input
    · -- `fork` fails at the last stage
      have hcond : ((i : Int) = (ha1.c_input : Int) - 1) := by omega
      simp only [main_build_step, e, exec_cmd, exec_cmd_pipe, ne_eq, hcond, not_true_eq_false,
        if_false, hf, safe_exit, hN0, not_false_eq_true, if_true, hI]
      refine ⟨_, rfl, rfl, by simp, ?_, ?_⟩
      · intro hi0
        simp only [lookup_sys_close]
        rw [if_neg (hprevI hi0)]
        exact hprevA hi0
      · intro h
        omega
    · -- `fork` fails after the pipe of this stage was created
      have hmid : i + 1 < ha0.c_input := by omega
      have hcond : ¬ ((i : Int) = (ha1.c_input : Int) - 1) := by omega
      have hrA := sys_pipe_read_free i w.parent.fds
      have hwA := sys_pipe_write_free i w.parent.fds
      have hne := sys_pipe_ne i w.parent.fds
      simp only [main_build_step, e, exec_cmd, exec_cmd_pipe, ne_eq, hcond, not_false_eq_true,
        if_true, hp hmid, hf, safe_exit, hN0, hI]
      refine ⟨_, rfl, rfl, by simp, ?_, ?_⟩
      · intro hi0
        have him : ¬ (i - 1 = i) := by omega
        simp only [lookup_sys_close, lookup_sys_pipe, him, if_false]
        rw [if_neg (hprevI hi0),
          if_neg (by intro h; rw [h, hwA] at hprevA; exact Option.noConfusion (hprevA hi0)),
          if_neg (by intro h; rw [h, hrA] at hprevA; exact Option.noConfusion (hprevA hi0))]
        exact hprevA hi0
      · intro _ _
        simp only [lookup_sys_close, lookup_sys_pipe, eq_self_iff_true, if_true, hWR, if_false]
        rw [if_neg (hfree _ hrA), if_neg (fun h => hne h.symm), if_neg (hfree _ hwA)]
        exact ⟨rfl, rfl⟩

/-- C6 (amended): when `pipe` or `fork` fails while stage `i` is built, the
parent runs `safe_exit`, which frees the handler and closes the input stream
and nothing else, and then calls `exit(errno)`; the pipe descriptors it held
at the failure are still open at that moment: the read end of pipe `i-1` when
`i > 0`, and both ends of pipe `i` when `fork` failed after `pipe(fd[i])`. -/
theorem error_path_keeps_pipes (env : Env) (ha : handler) (t : FdTable)
    (fd : Nat → Nat → Nat) (pid : Nat → Nat) (i : Nat) (hi : i < ha.c_input)
    (hcap : ha.n_cmd = 50)
    (htok : ∀ j, j < ha.c_input → (tokens_of isDelim (ha.saved_input j)).length ≤ 50)
    (hpipe : ∀ j, j < i → env.pipe_ok j = true)
    (hfork : ∀ j, j < i → env.fork_pid j ≠ none)
    (hin : lookup t ha.input ≠ none)
    (hfail : (i + 1 < ha.c_input ∧ env.pipe_ok i = false) ∨
      ((i + 1 < ha.c_input → env.pipe_ok i = true) ∧ env.fork_pid i = none)) :
    ∃ q, main_build env (start ha t fd pid) = some (.exit env.errno q) ∧ q.freed = true ∧
      q.log.getLast? = some (Call.fclose ha.input) ∧
      (0 < i → lookup q.fds (q.fd (i - 1) READ) = some (File.pipeRead (i - 1))) ∧
      (i + 1 < ha.c_input → env.pipe_ok i = true →
        lookup q.fds (q.fd i READ) = some (File.pipeRead i) ∧
        lookup q.fds (q.fd i WRITE) = some (File.pipeWrite i)) := by
  have htok1 : ∀ j, j < ha.c_input → (tokens_of isDelim (ha.saved_input j)).length ≤ ha.n_cmd + 1 := by
    intro j hj
    have := htok j hj
    omega
  obtain ⟨wi, ei, invi, -⟩ := build_upto env ha t i 0 (start ha t fd pid)
    (start_inv env ha t fd pid) (by omega)
    (fun j _ h => ⟨htok1 j (by omega), fun _ => hpipe j (by omega), hfork j (by omega)⟩)
  rw [Nat.zero_add] at invi
  obtain ⟨q, e, h1, h2, h3, h4⟩ := build_step_fail env ha t i wi invi hi (htok1 i hi) hin hfail
  refine ⟨q, ?_, h1, h2, h3, h4⟩
  show main_build_from env ha.c_input 0 (start ha t fd pid) = _
  rw [show ha.c_input = i + ((ha.c_input - (i + 1)) + 1) by omega, build_split, ei]
  simp only [main_build_from, Nat.zero_add, e]

/-- Witness for C6: three stages, `fork` fails at the middle one. -/
theorem error_path_keeps_pipes_witness :
    ∃ q, main_build (sample_env_fork_fails 1) (sample_world 3) =
        some (.exit (sample_env_fork_fails 1).errno q) ∧ q.freed = true ∧
      q.log.getLast? = some (Call.fclose (sample_handler 3).input) ∧
      (0 < 1 → lookup q.fds (q.fd (1 - 1) READ) = some (File.pipeRead (1 - 1))) ∧
      (1 + 1 < (sample_handler 3).c_input → (sample_env_fork_fails 1).pipe_ok 1 = true →
        lookup q.fds (q.fd 1 READ) = some (File.pipeRead 1) ∧
        lookup q.fds (q.fd 1 WRITE) = some (File.pipeWrite 1)) :=
  error_path_keeps_pipes (sample_env_fork_fails 1) (sample_handler 3) std_table (fun _ _ => 0)
    (fun _ => 0) 1 (by decide) rfl
    (fun _ _ => by
      show (tokens_of isDelim ['c', 'a', 't', '\n']).length ≤ 50
      decide)
    (fun _ _ => rfl)
    (fun j hj => by
      have : j = 0 := by omega
      subst this
      simp [sample_env_fork_fails])
    (by decide)
    (Or.inr ⟨fun _ => rfl, by simp [sample_env_fork_fails]⟩)

/-- C6 (counterexample): two stages, `fork` fails at stage 1.  The parent runs
`safe_exit` (its only call after the failed `fork` is `fclose` of the input) and
calls `exit(errno)` with descriptor 3, the read end of pipe 0, still open. -/
theorem safe_exit_leaves_pipe_open :
    (exit_of (main_build (sample_env_fork_fails 1) (sample_world 2))).map
        (fun x => (x.1, x.2.freed, x.2.fd 0 READ, lookup x.2.fds 3, x.2.log)) =
      some (2, true, 3, some (File.pipeRead 0),
        [Call.pipe 0, Call.fork 0, Call.close 4, Call.fork 1, Call.fclose 0]) := by
  decide

/-- C2 (the code at the failing input): two stages.  When the child of stage 0
calls `execvp`, after its single `dup2`, descriptors 3 and 4 are still open on
the read end and the write end of pipe 0: it has closed neither of the pipe's
original descriptors. -/
theorem first_child_keeps_pipe_ends :
    ((child_of (main_build (sample_env []) (sample_world 2)) 0).bind Child.at_execvp).map
        (fun q => (q.fd 0 READ, q.fd 0 WRITE, lookup q.fds 3, lookup q.fds 4,
          lookup q.fds STDOUT_FILENO, q.log)) =
      some (3, 4, some (File.pipeRead 0), some (File.pipeWrite 0), some (File.pipeWrite 0),
        [Call.dup2 4 1, Call.execvp (some ['c', 'a', 't'])]) := by
  rfl

/-- C9 (the code at the failing input): two stages, `dup2` onto standard input
fails in the child of stage 1.  `safe_dup` runs `safe_exit` and returns: the
child goes on to the close loop and calls `execvp(ha->args[0], ha->args)` on the
freed handler. -/
theorem failed_read_dup_returns :
    (child_of (main_build (sample_env_dup2_fails 1) (sample_world 2)) 1).map
        (fun c => (c.halt, c.at_execvp.map (fun q => (q.freed, q.log)))) =
      some (Halt.exec, some (true,
        [Call.dup2 3 0, Call.fclose 0, Call.close 4, Call.close 3,
          Call.execvp (some ['c', 'a', 't'])])) := by
  decide

end Mexec
